import Mathlib

/-!
Verification of the BlackScan product normalizer
(`src/BlackScan/data-normalizer/normalize.py`).

The Python source is shallowly embedded: strings are Lean `String`s
(processed as their `List Char` data), the two JSON lookup maps are
association lists in insertion order (Python dicts preserve insertion
order), Python `float` prices are modelled as rationals, and Python's
per-run builtin string hash is an explicit function parameter.
-/

set_option maxRecDepth 10000

/-- The six ASCII whitespace characters recognised by Python's `\s`,
`str.strip()` and `str.split()` (the inputs handled here are ASCII). -/
def isWsChar (c : Char) : Bool :=
  c == ' ' || c == '\t' || c == '\n' || c == '\x0d' || c == '\x0b' || c == '\x0c'

/-- The separator class `[\s,;/\-]` used by `map_main_category`'s
word-boundary regex. -/
def isSepChar (c : Char) : Bool :=
  isWsChar c || c == ',' || c == ';' || c == '/' || c == '-'

/-- The trailing separator class `[\s,;/\-\x27s]` used by
`infer_category_from_name`: the same separators plus an apostrophe and the
letter `s`. -/
def isSepCharS (c : Char) : Bool :=
  isSepChar c || c == '\x27' || c == 's'

/-- Python's `\w` word characters (ASCII): letters, digits, underscore. -/
def isWordChar (c : Char) : Bool :=
  (65 ≤ c.toNat && c.toNat ≤ 90) || (97 ≤ c.toNat && c.toNat ≤ 122) ||
  (48 ≤ c.toNat && c.toNat ≤ 57) || c == '_'

/-- ASCII lowercasing, as `str.lower()` acts on the ASCII range. -/
def pyLowerChar (c : Char) : Char :=
  if 65 ≤ c.toNat ∧ c.toNat ≤ 90 then Char.ofNat (c.toNat + 32) else c

def lowerList (l : List Char) : List Char := l.map pyLowerChar

def lowerStr (s : String) : String := String.mk (lowerList s.data)

/-- Split a character list at its first `>`: returns the characters before
it and the characters after it.  Helper for the HTML-tag regex
`<[^>]+>`. -/
def findGtSplit : List Char → Option (List Char × List Char)
  | [] => none
  | c :: rest =>
    if c = '>' then some ([], rest)
    else (findGtSplit rest).map (fun p => (c :: p.1, p.2))

theorem findGtSplit_length {l : List Char} {a b : List Char}
    (h : findGtSplit l = some (a, b)) : b.length < l.length := by
  induction l generalizing a b with
  | nil => simp [findGtSplit] at h
  | cons c rest ih =>
    by_cases hc : c = '>'
    · simp only [findGtSplit, if_pos hc, Option.some_inj] at h
      cases h
      simp
    · simp only [findGtSplit, if_neg hc, Option.map_eq_some'] at h
      obtain ⟨p, hp, hpe⟩ := h
      cases hpe
      have := ih (show findGtSplit rest = some (p.1, p.2) by simpa using hp)
      simp
      omega

/-- Fuel-indexed worker for `stripTags` (structural recursion on the fuel
so that the kernel can evaluate it; the fuel never runs out when it starts
at the list length). -/
def stripTagsFuel : Nat → List Char → List Char
  | 0, l => l
  | _ + 1, [] => []
  | n + 1, c :: rest =>
    if c = '<' then
      match findGtSplit rest with
      | some (inner, after) =>
        if inner.isEmpty then c :: stripTagsFuel n rest else ' ' :: stripTagsFuel n after
      | none => c :: stripTagsFuel n rest
    else c :: stripTagsFuel n rest

/-- `re.sub(r'<[^>]+>', ' ', text)`: each leftmost match of a `<`, one or
more non-`>` characters, and a `>` is replaced by a single space. -/
def stripTags (l : List Char) : List Char := stripTagsFuel l.length l

theorem stripTagsFuel_congr :
    ∀ (n m : Nat) (l : List Char), l.length ≤ n → l.length ≤ m →
      stripTagsFuel n l = stripTagsFuel m l := by
  intro n
  induction n with
  | zero =>
    intro m l hn _
    have hl : l = [] := List.eq_nil_of_length_eq_zero (by omega)
    subst hl
    cases m with
    | zero => rfl
    | succ m2 => rfl
  | succ n ih =>
    intro m l hn hm
    cases l with
    | nil =>
      cases m with
      | zero => rfl
      | succ m2 => rfl
    | cons c rest =>
      cases m with
      | zero => simp at hm
      | succ m2 =>
        rw [List.length_cons] at hn hm
        rw [stripTagsFuel, stripTagsFuel]
        by_cases hc : c = '<'
        · rw [if_pos hc, if_pos hc]
          cases hf : findGtSplit rest with
          | some p =>
            obtain ⟨inner, after⟩ := p
            have hlen := findGtSplit_length hf
            show (if inner.isEmpty = true then c :: stripTagsFuel n rest
                  else ' ' :: stripTagsFuel n after) =
              (if inner.isEmpty = true then c :: stripTagsFuel m2 rest
               else ' ' :: stripTagsFuel m2 after)
            by_cases hi : inner.isEmpty = true
            · rw [if_pos hi, if_pos hi, ih m2 rest (by omega) (by omega)]
            · rw [if_neg hi, if_neg hi, ih m2 after (by omega) (by omega)]
          | none =>
            show c :: stripTagsFuel n rest = c :: stripTagsFuel m2 rest
            rw [ih m2 rest (by omega) (by omega)]
        · rw [if_neg hc, if_neg hc]
          rw [ih m2 rest (by omega) (by omega)]

/-- `re.sub(r'\s+', ' ', text)`: every maximal run of whitespace becomes a
single space. -/
def collapseWs : List Char → List Char
  | [] => []
  | [c] => if isWsChar c then [' '] else [c]
  | a :: b :: rest =>
    if isWsChar a && isWsChar b then collapseWs (b :: rest)
    else (if isWsChar a then ' ' else a) :: collapseWs (b :: rest)

/-- `str.strip()`: drop leading and trailing whitespace. -/
def pyStrip (l : List Char) : List Char :=
  ((l.dropWhile isWsChar).reverse.dropWhile isWsChar).reverse

def pyStripStr (s : String) : String := String.mk (pyStrip s.data)

/-- The character pipeline of `normalize_text` on non-empty input:
strip HTML-like tags, lowercase, strip, collapse whitespace runs. -/
def normChars (l : List Char) : List Char :=
  collapseWs (pyStrip (lowerList (stripTags l)))

/-- `normalize_text(text)`: empty input short-circuits to the empty
string; otherwise tags are removed, the text is lowercased and stripped,
and whitespace runs are collapsed. -/
def normalize_text (s : String) : String :=
  if s = "" then "" else String.mk (normChars s.data)

/-- `normalize_text` on a possibly missing field (`None` in Python is
falsy, so it also yields the empty string). -/
def normalize_text_field (s : Option String) : String :=
  match s with
  | none => ""
  | some t => normalize_text t

/-! ### Character-level facts used by the idempotence proof (C8) -/

theorem toNat_ofNat_valid {n : Nat} (h : n < 55296) : (Char.ofNat n).toNat = n := by
  unfold Char.ofNat
  rw [dif_pos (Or.inl h)]
  rfl

theorem char_eq_of_toNat {c d : Char} (h : c.toNat = d.toNat) : c = d :=
  Char.ext (UInt32.ext h)

theorem char_eq_iff_toNat {c d : Char} : c = d ↔ c.toNat = d.toNat :=
  ⟨fun h => by rw [h], char_eq_of_toNat⟩

theorem isWsChar_iff {c : Char} : isWsChar c = true ↔
    (c.toNat = 32 ∨ c.toNat = 9 ∨ c.toNat = 10 ∨ c.toNat = 13 ∨ c.toNat = 11 ∨ c.toNat = 12) := by
  unfold isWsChar
  simp only [Bool.or_eq_true, beq_iff_eq]
  rw [char_eq_iff_toNat, char_eq_iff_toNat, char_eq_iff_toNat, char_eq_iff_toNat,
    char_eq_iff_toNat, char_eq_iff_toNat]
  have e1 : (' ' : Char).toNat = 32 := rfl
  have e2 : ('\t' : Char).toNat = 9 := rfl
  have e3 : ('\n' : Char).toNat = 10 := rfl
  have e4 : ('\x0d' : Char).toNat = 13 := rfl
  have e5 : ('\x0b' : Char).toNat = 11 := rfl
  have e6 : ('\x0c' : Char).toNat = 12 := rfl
  rw [e1, e2, e3, e4, e5, e6]
  tauto

theorem pyLowerChar_toNat_of_upper {c : Char} (h1 : 65 ≤ c.toNat) (h2 : c.toNat ≤ 90) :
    (pyLowerChar c).toNat = c.toNat + 32 := by
  unfold pyLowerChar
  rw [if_pos ⟨h1, h2⟩]
  exact toNat_ofNat_valid (by omega)

theorem pyLowerChar_of_not_upper {c : Char} (h : ¬ (65 ≤ c.toNat ∧ c.toNat ≤ 90)) :
    pyLowerChar c = c := by
  unfold pyLowerChar
  rw [if_neg h]

theorem pyLowerChar_idem (c : Char) : pyLowerChar (pyLowerChar c) = pyLowerChar c := by
  by_cases h : 65 ≤ c.toNat ∧ c.toNat ≤ 90
  · have ht := pyLowerChar_toNat_of_upper h.1 h.2
    apply pyLowerChar_of_not_upper
    omega
  · rw [pyLowerChar_of_not_upper h, pyLowerChar_of_not_upper h]

theorem isWsChar_pyLowerChar (c : Char) : isWsChar (pyLowerChar c) = isWsChar c := by
  by_cases h : 65 ≤ c.toNat ∧ c.toNat ≤ 90
  · have ht := pyLowerChar_toNat_of_upper h.1 h.2
    by_cases hw : isWsChar c = true
    · rw [isWsChar_iff] at hw
      omega
    · rw [Bool.not_eq_true] at hw
      rw [hw, Bool.eq_false_iff]
      intro hc
      rw [isWsChar_iff] at hc
      omega
  · rw [pyLowerChar_of_not_upper h]

theorem pyLowerChar_eq_lt_iff (c : Char) : (pyLowerChar c = '<') ↔ c = '<' := by
  constructor
  · intro h
    by_cases hu : 65 ≤ c.toNat ∧ c.toNat ≤ 90
    · exfalso
      have ht := pyLowerChar_toNat_of_upper hu.1 hu.2
      rw [char_eq_iff_toNat] at h
      have e : ('<' : Char).toNat = 60 := rfl
      omega
    · rwa [pyLowerChar_of_not_upper hu] at h
  · intro h
    subst h
    rfl

theorem pyLowerChar_eq_gt_iff (c : Char) : (pyLowerChar c = '>') ↔ c = '>' := by
  constructor
  · intro h
    by_cases hu : 65 ≤ c.toNat ∧ c.toNat ≤ 90
    · exfalso
      have ht := pyLowerChar_toNat_of_upper hu.1 hu.2
      rw [char_eq_iff_toNat] at h
      have e : ('>' : Char).toNat = 62 := rfl
      omega
    · rwa [pyLowerChar_of_not_upper hu] at h
  · intro h
    subst h
    rfl

/-! ### Rewrite equations for `stripTags` -/

theorem stripTags_nil : stripTags [] = [] := rfl

theorem stripTags_cons_some_empty {rest inner after : List Char}
    (hs : findGtSplit rest = some (inner, after)) (hi : inner.isEmpty = true) :
    stripTags ('<' :: rest) = '<' :: stripTags rest := by
  show stripTagsFuel (rest.length + 1) ('<' :: rest) = '<' :: stripTagsFuel rest.length rest
  rw [stripTagsFuel, if_pos rfl, hs]
  show (if inner.isEmpty = true then '<' :: stripTagsFuel rest.length rest
        else ' ' :: stripTagsFuel rest.length after) = '<' :: stripTagsFuel rest.length rest
  rw [if_pos hi]

theorem stripTags_cons_some_full {rest inner after : List Char}
    (hs : findGtSplit rest = some (inner, after)) (hi : ¬ inner.isEmpty = true) :
    stripTags ('<' :: rest) = ' ' :: stripTags after := by
  show stripTagsFuel (rest.length + 1) ('<' :: rest) = ' ' :: stripTagsFuel after.length after
  rw [stripTagsFuel, if_pos rfl, hs]
  show (if inner.isEmpty = true then '<' :: stripTagsFuel rest.length rest
        else ' ' :: stripTagsFuel rest.length after) = ' ' :: stripTagsFuel after.length after
  rw [if_neg hi]
  have hlen := findGtSplit_length hs
  rw [stripTagsFuel_congr rest.length after.length after (by omega) (Nat.le_refl _)]

theorem stripTags_cons_none {rest : List Char} (hs : findGtSplit rest = none) :
    stripTags ('<' :: rest) = '<' :: stripTags rest := by
  show stripTagsFuel (rest.length + 1) ('<' :: rest) = '<' :: stripTagsFuel rest.length rest
  rw [stripTagsFuel, if_pos rfl, hs]

theorem stripTags_cons_ne {c : Char} {rest : List Char} (hc : ¬ c = '<') :
    stripTags (c :: rest) = c :: stripTags rest := by
  show stripTagsFuel (rest.length + 1) (c :: rest) = c :: stripTagsFuel rest.length rest
  rw [stripTagsFuel, if_neg hc]

/-! ### `tagFree`: no substring of the form `<[^>]+>` remains -/

/-- `true` iff the list contains a `>` character. -/
def hasGt (l : List Char) : Bool := l.any (fun c => c == '>')

/-- The condition under which a `<` cannot open a tag match: the very next
character is already `>`, or no `>` occurs afterwards at all. -/
def ltOk : List Char → Bool
  | [] => true
  | d :: t => d == '>' || !hasGt (d :: t)

/-- No `<` in the list opens a match of `<[^>]+>`. -/
def tagFree : List Char → Bool
  | [] => true
  | c :: rest => (if c = '<' then ltOk rest else true) && tagFree rest

theorem tagFree_tail {c : Char} {rest : List Char} (h : tagFree (c :: rest) = true) :
    tagFree rest = true := by
  rw [tagFree] at h
  exact (Bool.and_eq_true_iff.mp h).2

theorem findGtSplit_decomp {l a b : List Char} (h : findGtSplit l = some (a, b)) :
    l = a ++ '>' :: b := by
  induction l generalizing a b with
  | nil => simp [findGtSplit] at h
  | cons c rest ih =>
    by_cases hc : c = '>'
    · simp only [findGtSplit, if_pos hc, Option.some_inj] at h
      cases h
      subst hc
      simp
    · simp only [findGtSplit, if_neg hc, Option.map_eq_some'] at h
      obtain ⟨p, hp, hpe⟩ := h
      cases hpe
      have h1 := ih (show findGtSplit rest = some (p.1, p.2) by simpa using hp)
      simp [h1]

theorem findGtSplit_none_iff {l : List Char} : findGtSplit l = none ↔ hasGt l = false := by
  induction l with
  | nil => simp [findGtSplit, hasGt]
  | cons c rest ih =>
    by_cases hc : c = '>'
    · simp [findGtSplit, if_pos hc, hasGt, hc]
    · simp only [findGtSplit, if_neg hc, Option.map_eq_none', hasGt, List.any_cons]
      rw [hasGt] at ih
      simp [ih, hc]

theorem stripTags_mem_aux :
    ∀ (n : Nat) (l : List Char) (c : Char), l.length ≤ n → c ∈ stripTags l →
      c = ' ' ∨ c ∈ l := by
  intro n
  induction n with
  | zero =>
    intro l c hn h
    have hl : l = [] := List.eq_nil_of_length_eq_zero (by omega)
    subst hl
    rw [stripTags_nil] at h
    simp at h
  | succ n ih =>
    intro l c hn h
    cases l with
    | nil =>
      rw [stripTags_nil] at h
      simp at h
    | cons d rest =>
      rw [List.length_cons] at hn
      by_cases hd : d = '<'
      · subst hd
        cases hf : findGtSplit rest with
        | some p =>
          obtain ⟨inner, after⟩ := p
          have hlen := findGtSplit_length hf
          by_cases hi : inner.isEmpty = true
          · rw [stripTags_cons_some_empty hf hi] at h
            rcases List.mem_cons.mp h with he | hm
            · right; subst he; exact List.mem_cons_self _ _
            · rcases ih rest c (by omega) hm with h1 | h1
              · left; exact h1
              · right; exact List.mem_cons_of_mem _ h1
          · rw [stripTags_cons_some_full hf hi] at h
            rcases List.mem_cons.mp h with he | hm
            · left; exact he
            · rcases ih after c (by omega) hm with h1 | h1
              · left; exact h1
              · right
                rw [findGtSplit_decomp hf]
                simp [h1]
        | none =>
          rw [stripTags_cons_none hf] at h
          rcases List.mem_cons.mp h with he | hm
          · right; subst he; exact List.mem_cons_self _ _
          · rcases ih rest c (by omega) hm with h1 | h1
            · left; exact h1
            · right; exact List.mem_cons_of_mem _ h1
      · rw [stripTags_cons_ne hd] at h
        rcases List.mem_cons.mp h with he | hm
        · right; subst he; exact List.mem_cons_self _ _
        · rcases ih rest c (by omega) hm with h1 | h1
          · left; exact h1
          · right; exact List.mem_cons_of_mem _ h1

theorem stripTags_mem {l : List Char} {c : Char} (h : c ∈ stripTags l) :
    c = ' ' ∨ c ∈ l :=
  stripTags_mem_aux l.length l c (Nat.le_refl _) h


theorem hasGt_stripTags {l : List Char} (h : hasGt l = false) :
    hasGt (stripTags l) = false := by
  rw [hasGt] at h ⊢
  rw [Bool.eq_false_iff] at h ⊢
  intro ha
  apply h
  rw [List.any_eq_true] at ha ⊢
  obtain ⟨c, hc, hcg⟩ := ha
  rcases stripTags_mem hc with h1 | h1
  · subst h1
    simp at hcg
  · exact ⟨c, h1, hcg⟩

theorem tagFree_stripTags_aux :
    ∀ (n : Nat) (l : List Char), l.length ≤ n → tagFree (stripTags l) = true := by
  intro n
  induction n with
  | zero =>
    intro l hn
    have hl : l = [] := List.eq_nil_of_length_eq_zero (by omega)
    subst hl
    rw [stripTags_nil]
    rfl
  | succ n ih =>
    intro l hn
    cases l with
    | nil =>
      rw [stripTags_nil]
      rfl
    | cons c rest =>
      rw [List.length_cons] at hn
      by_cases hc : c = '<'
      · subst hc
        cases hf : findGtSplit rest with
        | some p =>
          obtain ⟨inner, after⟩ := p
          have hlen := findGtSplit_length hf
          by_cases hi : inner.isEmpty = true
          · rw [stripTags_cons_some_empty hf hi]
            rw [tagFree]
            refine Bool.and_eq_true_iff.mpr ⟨?_, ih rest (by omega)⟩
            rw [if_pos rfl]
            have hd : rest = '>' :: after := by
              have := findGtSplit_decomp hf
              rw [List.isEmpty_iff] at hi
              simpa [hi] using this
            have hst : stripTags rest = '>' :: stripTags after := by
              rw [hd]
              exact stripTags_cons_ne (by decide)
            rw [hst, ltOk]
            simp
          · rw [stripTags_cons_some_full hf hi]
            rw [tagFree]
            refine Bool.and_eq_true_iff.mpr ⟨?_, ih after (by omega)⟩
            rw [if_neg (by decide)]
        | none =>
          rw [stripTags_cons_none hf]
          rw [tagFree]
          refine Bool.and_eq_true_iff.mpr ⟨?_, ih rest (by omega)⟩
          rw [if_pos rfl]
          have hg : hasGt rest = false := findGtSplit_none_iff.mp hf
          have hg2 : hasGt (stripTags rest) = false := hasGt_stripTags hg
          cases hst : stripTags rest with
          | nil => rfl
          | cons d t =>
            rw [hst] at hg2
            rw [ltOk]
            simp [hg2]
      · rw [stripTags_cons_ne hc]
        rw [tagFree]
        refine Bool.and_eq_true_iff.mpr ⟨?_, ih rest (by omega)⟩
        rw [if_neg hc]

theorem tagFree_stripTags (l : List Char) : tagFree (stripTags l) = true :=
  tagFree_stripTags_aux l.length l (Nat.le_refl _)


theorem stripTags_of_tagFree {l : List Char} (h : tagFree l = true) : stripTags l = l := by
  induction l with
  | nil => exact stripTags_nil
  | cons c rest ih =>
    have htl := tagFree_tail h
    by_cases hc : c = '<'
    · subst hc
      rw [tagFree] at h
      obtain ⟨hcond, _⟩ := Bool.and_eq_true_iff.mp h
      rw [if_pos rfl] at hcond
      cases rest with
      | nil =>
        rw [stripTags_cons_none (by rw [findGtSplit])]
        rw [ih htl]
      | cons d t =>
        rw [ltOk] at hcond
        rcases Bool.or_eq_true_iff.mp hcond with hd | hng
        · rw [beq_iff_eq] at hd
          subst hd
          have hsplit : findGtSplit ('>' :: t) = some ([], t) := by
            rw [findGtSplit]
            rw [if_pos rfl]
          rw [stripTags_cons_some_empty hsplit (by rfl)]
          rw [ih htl]
        · have hng2 : hasGt (d :: t) = false := by
            rw [Bool.not_eq_true'] at hng
            exact hng
          rw [stripTags_cons_none (findGtSplit_none_iff.mpr hng2)]
          rw [ih htl]
    · rw [stripTags_cons_ne hc]
      rw [ih htl]

/-! ### `tagFree` is preserved by lowercasing, stripping and collapsing -/

theorem hasGt_lowerList (l : List Char) : hasGt (lowerList l) = hasGt l := by
  induction l with
  | nil => rfl
  | cons c rest ih =>
    rw [lowerList, List.map_cons, hasGt, List.any_cons, hasGt, List.any_cons]
    rw [hasGt, lowerList] at ih
    rw [ih]
    by_cases h : c = '>'
    · subst h
      rfl
    · have h2 : ¬ pyLowerChar c = '>' := fun hc => h ((pyLowerChar_eq_gt_iff c).mp hc)
      have e1 : (pyLowerChar c == '>') = false := by simpa using h2
      have e2 : (c == '>') = false := by simpa using h
      rw [e1, e2, hasGt]

theorem tagFree_lowerList {l : List Char} (h : tagFree l = true) :
    tagFree (lowerList l) = true := by
  induction l with
  | nil => rfl
  | cons c rest ih =>
    have htl := ih (tagFree_tail h)
    rw [lowerList, List.map_cons, tagFree]
    refine Bool.and_eq_true_iff.mpr ⟨?_, htl⟩
    by_cases hc : pyLowerChar c = '<'
    · rw [if_pos hc]
      have hc2 : c = '<' := (pyLowerChar_eq_lt_iff c).mp hc
      rw [tagFree] at h
      obtain ⟨hcond, _⟩ := Bool.and_eq_true_iff.mp h
      rw [if_pos hc2] at hcond
      cases rest with
      | nil => rfl
      | cons d t =>
        rw [List.map_cons, ltOk]
        rw [ltOk] at hcond
        rcases Bool.or_eq_true_iff.mp hcond with hd | hng
        · rw [beq_iff_eq] at hd
          subst hd
          refine Bool.or_eq_true_iff.mpr (Or.inl ?_)
          decide
        · refine Bool.or_eq_true_iff.mpr (Or.inr ?_)
          have heq : hasGt (lowerList (d :: t)) = hasGt (d :: t) := hasGt_lowerList _
          rw [lowerList, List.map_cons] at heq
          rw [heq]
          exact hng
    · rw [if_neg hc]

theorem tagFree_append_left {l₁ l₂ : List Char} (h : tagFree (l₁ ++ l₂) = true) :
    tagFree l₁ = true := by
  induction l₁ with
  | nil => rfl
  | cons c rest ih =>
    rw [List.cons_append, tagFree] at h
    obtain ⟨hcond, htail⟩ := Bool.and_eq_true_iff.mp h
    rw [tagFree]
    refine Bool.and_eq_true_iff.mpr ⟨?_, ih htail⟩
    by_cases hc : c = '<'
    · rw [if_pos hc]
      rw [if_pos hc] at hcond
      cases rest with
      | nil => rfl
      | cons d t =>
        rw [List.cons_append, ltOk] at hcond
        rw [ltOk]
        rcases Bool.or_eq_true_iff.mp hcond with hd | hng
        · exact Bool.or_eq_true_iff.mpr (Or.inl hd)
        · refine Bool.or_eq_true_iff.mpr (Or.inr ?_)
          rw [Bool.not_eq_true'] at hng ⊢
          rw [hasGt] at hng ⊢
          rw [Bool.eq_false_iff] at hng ⊢
          intro ha
          apply hng
          rw [List.any_eq_true] at ha ⊢
          obtain ⟨x, hx, hxg⟩ := ha
          refine ⟨x, ?_, hxg⟩
          rcases List.mem_cons.mp hx with he | hm
          · exact List.mem_cons.mpr (Or.inl he)
          · exact List.mem_cons.mpr (Or.inr (List.mem_append.mpr (Or.inl hm)))
    · rw [if_neg hc]

theorem tagFree_dropWhile {l : List Char} (p : Char → Bool) (h : tagFree l = true) :
    tagFree (l.dropWhile p) = true := by
  induction l with
  | nil => rfl
  | cons c rest ih =>
    rw [List.dropWhile_cons]
    by_cases hp : p c = true
    · rw [if_pos hp]
      exact ih (tagFree_tail h)
    · rw [if_neg hp]
      exact h

theorem pyStrip_decomp (l : List Char) :
    ∃ t, l.dropWhile isWsChar = pyStrip l ++ t := by
  rw [pyStrip]
  refine ⟨((l.dropWhile isWsChar).reverse.takeWhile isWsChar).reverse, ?_⟩
  have h := List.takeWhile_append_dropWhile (p := isWsChar) (l := (l.dropWhile isWsChar).reverse)
  calc l.dropWhile isWsChar
      = (l.dropWhile isWsChar).reverse.reverse := by rw [List.reverse_reverse]
    _ = _ := by
        conv_lhs => rw [← h]
        rw [List.reverse_append]

theorem tagFree_pyStrip {l : List Char} (h : tagFree l = true) :
    tagFree (pyStrip l) = true := by
  obtain ⟨t, ht⟩ := pyStrip_decomp l
  have h1 : tagFree (l.dropWhile isWsChar) = true := tagFree_dropWhile _ h
  rw [ht] at h1
  exact tagFree_append_left h1

theorem collapseWs_nil : collapseWs [] = [] := by rw [collapseWs]

theorem collapseWs_one (c : Char) :
    collapseWs [c] = if isWsChar c then [' '] else [c] := by rw [collapseWs]

theorem collapseWs_two {a b : Char} {rest : List Char} (h : (isWsChar a && isWsChar b) = true) :
    collapseWs (a :: b :: rest) = collapseWs (b :: rest) := by
  rw [collapseWs, if_pos h]

theorem collapseWs_two_ne {a b : Char} {rest : List Char}
    (h : ¬ (isWsChar a && isWsChar b) = true) :
    collapseWs (a :: b :: rest) = (if isWsChar a then ' ' else a) :: collapseWs (b :: rest) := by
  rw [collapseWs, if_neg h]

theorem collapseWs_ne_nil {l : List Char} (h : l ≠ []) : collapseWs l ≠ [] := by
  induction l using collapseWs.induct with
  | case1 => exact absurd rfl h
  | case2 c hc => rw [collapseWs_one, if_pos hc]; simp
  | case3 c hc => rw [collapseWs_one, if_neg hc]; simp
  | case4 a b rest hab ih => rw [collapseWs_two hab]; exact ih (by simp)
  | case5 a b rest hab ih => rw [collapseWs_two_ne hab]; simp

theorem collapseWs_cons_not_ws {b : Char} {r : List Char} (h : ¬ isWsChar b = true) :
    ∃ t, collapseWs (b :: r) = b :: t := by
  cases r with
  | nil =>
    rw [collapseWs_one, if_neg h]
    exact ⟨[], rfl⟩
  | cons x xs =>
    have hne : ¬ (isWsChar b && isWsChar x) = true := by
      intro hx
      exact h (Bool.and_eq_true_iff.mp hx).1
    rw [collapseWs_two_ne hne, if_neg h]
    exact ⟨collapseWs (x :: xs), rfl⟩

theorem collapseWs_mem {l : List Char} {c : Char} (h : c ∈ collapseWs l) :
    c = ' ' ∨ c ∈ l := by
  induction l using collapseWs.induct with
  | case1 => rw [collapseWs_nil] at h; simp at h
  | case2 d hd =>
    rw [collapseWs_one, if_pos hd] at h
    rcases List.mem_singleton.mp h with he
    left; exact he
  | case3 d hd =>
    rw [collapseWs_one, if_neg hd] at h
    right; exact h
  | case4 a b rest hab ih =>
    rw [collapseWs_two hab] at h
    rcases ih h with h1 | h1
    · left; exact h1
    · right; exact List.mem_cons_of_mem _ h1
  | case5 a b rest hab ih =>
    rw [collapseWs_two_ne hab] at h
    rcases List.mem_cons.mp h with he | hm
    · by_cases hwa : isWsChar a = true
      · rw [if_pos hwa] at he
        left; exact he
      · rw [if_neg hwa] at he
        right; subst he; exact List.mem_cons_self _ _
    · rcases ih hm with h1 | h1
      · left; exact h1
      · right; exact List.mem_cons_of_mem _ h1

theorem hasGt_collapseWs {l : List Char} (h : hasGt l = false) :
    hasGt (collapseWs l) = false := by
  rw [hasGt] at h ⊢
  rw [Bool.eq_false_iff] at h ⊢
  intro ha
  apply h
  rw [List.any_eq_true] at ha ⊢
  obtain ⟨c, hc, hcg⟩ := ha
  rcases collapseWs_mem hc with h1 | h1
  · subst h1
    simp at hcg
  · exact ⟨c, h1, hcg⟩

theorem tagFree_collapseWs {l : List Char} (h : tagFree l = true) :
    tagFree (collapseWs l) = true := by
  induction l using collapseWs.induct with
  | case1 => rw [collapseWs_nil]; rfl
  | case2 c hc => rw [collapseWs_one, if_pos hc]; rfl
  | case3 c hc =>
    rw [collapseWs_one, if_neg hc]
    rw [tagFree]
    refine Bool.and_eq_true_iff.mpr ⟨?_, rfl⟩
    by_cases hlt : c = '<'
    · rw [if_pos hlt]
      rfl
    · rw [if_neg hlt]
  | case4 a b rest hab ih =>
    rw [collapseWs_two hab]
    exact ih (tagFree_tail h)
  | case5 a b rest hab ih =>
    rw [collapseWs_two_ne hab]
    have htail := ih (tagFree_tail h)
    rw [tagFree]
    refine Bool.and_eq_true_iff.mpr ⟨?_, htail⟩
    by_cases he : (if isWsChar a then ' ' else a) = '<'
    · rw [if_pos he]
      have hwa : ¬ isWsChar a = true := by
        intro hwa
        rw [if_pos hwa] at he
        exact absurd he (by decide)
      rw [if_neg hwa] at he
      subst he
      rw [tagFree] at h
      obtain ⟨hcond, _⟩ := Bool.and_eq_true_iff.mp h
      rw [if_pos rfl] at hcond
      rw [ltOk] at hcond
      rcases Bool.or_eq_true_iff.mp hcond with hd | hng
      · rw [beq_iff_eq] at hd
        subst hd
        obtain ⟨t, ht⟩ := collapseWs_cons_not_ws (show ¬ isWsChar '>' = true by decide)
        rw [ht, ltOk]
        simp
      · rw [Bool.not_eq_true'] at hng
        have hg2 : hasGt (collapseWs (b :: rest)) = false := hasGt_collapseWs hng
        cases hcw : collapseWs (b :: rest) with
        | nil => rfl
        | cons d t =>
          rw [hcw] at hg2
          rw [ltOk]
          simp [hg2]
    · rw [if_neg he]

/-! ### Head/tail whitespace structure after strip and collapse -/

/-- The list is empty or does not start with whitespace. -/
def noLeadWs : List Char → Bool
  | [] => true
  | c :: _ => !isWsChar c

/-- The list is empty or does not end with whitespace. -/
def noTrailWs (l : List Char) : Bool := noLeadWs l.reverse

theorem noLeadWs_dropWhile (l : List Char) : noLeadWs (l.dropWhile isWsChar) = true := by
  induction l with
  | nil => rfl
  | cons c rest ih =>
    rw [List.dropWhile_cons]
    by_cases h : isWsChar c = true
    · rw [if_pos h]
      exact ih
    · rw [if_neg h]
      rw [noLeadWs]
      simpa using h

theorem noLeadWs_append_right {l t : List Char} (h : noLeadWs (l ++ t) = true) :
    noLeadWs l = true := by
  cases l with
  | nil => rfl
  | cons c r =>
    rw [List.cons_append, noLeadWs] at h
    rw [noLeadWs]
    exact h

theorem noLeadWs_pyStrip (l : List Char) : noLeadWs (pyStrip l) = true := by
  obtain ⟨t, ht⟩ := pyStrip_decomp l
  have h1 := noLeadWs_dropWhile l
  rw [ht] at h1
  exact noLeadWs_append_right h1

theorem noTrailWs_pyStrip (l : List Char) : noTrailWs (pyStrip l) = true := by
  rw [noTrailWs, pyStrip, List.reverse_reverse]
  exact noLeadWs_dropWhile _

theorem noLeadWs_collapseWs {l : List Char} (h : noLeadWs l = true) :
    noLeadWs (collapseWs l) = true := by
  cases l with
  | nil => rw [collapseWs_nil]; rfl
  | cons c r =>
    rw [noLeadWs] at h
    obtain ⟨t, ht⟩ := collapseWs_cons_not_ws (by simpa using h)
    rw [ht, noLeadWs]
    exact h

theorem noLeadWs_append_left {l t : List Char} (hne : l ≠ []) :
    noLeadWs (l ++ t) = noLeadWs l := by
  cases l with
  | nil => exact absurd rfl hne
  | cons c r => rw [List.cons_append, noLeadWs, noLeadWs]

theorem noTrailWs_cons_tail {a : Char} {r : List Char} (hne : r ≠ [])
    (h : noTrailWs (a :: r) = true) : noTrailWs r = true := by
  rw [noTrailWs, List.reverse_cons, noLeadWs_append_left (by simpa using hne)] at h
  exact h

theorem noTrailWs_cons_of_tail {a : Char} {r : List Char} (hne : r ≠ [])
    (h : noTrailWs r = true) : noTrailWs (a :: r) = true := by
  rw [noTrailWs, List.reverse_cons, noLeadWs_append_left (by simpa using hne)]
  exact h

theorem noTrailWs_collapseWs {l : List Char} (h : noTrailWs l = true) :
    noTrailWs (collapseWs l) = true := by
  induction l using collapseWs.induct with
  | case1 => rw [collapseWs_nil]; rfl
  | case2 c hc =>
    rw [noTrailWs, List.reverse_cons, List.reverse_nil, List.nil_append, noLeadWs] at h
    simp [hc] at h
  | case3 c hc =>
    rw [collapseWs_one, if_neg hc]
    exact h
  | case4 a b rest hab ih =>
    rw [collapseWs_two hab]
    exact ih (noTrailWs_cons_tail (by simp) h)
  | case5 a b rest hab ih =>
    rw [collapseWs_two_ne hab]
    have htail := ih (noTrailWs_cons_tail (by simp) h)
    exact noTrailWs_cons_of_tail (collapseWs_ne_nil (by simp)) htail

/-! ### `wellSpaced`: whitespace already collapsed to single spaces -/

/-- All whitespace characters are plain spaces and no two adjacent
characters are both whitespace. -/
def wellSpaced : List Char → Bool
  | [] => true
  | [c] => !isWsChar c || c == ' '
  | a :: b :: r =>
    (!isWsChar a || a == ' ') && !(isWsChar a && isWsChar b) && wellSpaced (b :: r)

theorem wellSpaced_collapseWs (l : List Char) : wellSpaced (collapseWs l) = true := by
  induction l using collapseWs.induct with
  | case1 => rw [collapseWs_nil]; rfl
  | case2 c hc =>
    rw [collapseWs_one, if_pos hc]
    rfl
  | case3 c hc =>
    rw [collapseWs_one, if_neg hc, wellSpaced]
    simp [hc]
  | case4 a b rest hab ih =>
    rw [collapseWs_two hab]
    exact ih
  | case5 a b rest hab ih =>
    rw [collapseWs_two_ne hab]
    have hnn : collapseWs (b :: rest) ≠ [] := collapseWs_ne_nil (by simp)
    cases hcw : collapseWs (b :: rest) with
    | nil => exact absurd hcw hnn
    | cons x xs =>
      rw [wellSpaced]
      rw [hcw] at ih
      refine Bool.and_eq_true_iff.mpr ⟨Bool.and_eq_true_iff.mpr ⟨?_, ?_⟩, ih⟩
      · by_cases hwa : isWsChar a = true
        · rw [if_pos hwa]
          decide
        · rw [if_neg hwa]
          simp [hwa]
      · by_cases hwa : isWsChar a = true
        · rw [if_pos hwa]
          have hwb : ¬ isWsChar b = true := by
            intro hwb
            exact hab (Bool.and_eq_true_iff.mpr ⟨hwa, hwb⟩)
          obtain ⟨t, ht⟩ := collapseWs_cons_not_ws hwb
          rw [ht] at hcw
          cases hcw
          simp [hwb]
        · rw [if_neg hwa]
          simp [hwa]

theorem collapseWs_of_wellSpaced {l : List Char} (h : wellSpaced l = true) :
    collapseWs l = l := by
  induction l using collapseWs.induct with
  | case1 => exact collapseWs_nil
  | case2 c hc =>
    rw [collapseWs_one, if_pos hc]
    rw [wellSpaced] at h
    rcases Bool.or_eq_true_iff.mp h with h1 | h1
    · simp [hc] at h1
    · rw [beq_iff_eq] at h1
      rw [h1]
  | case3 c hc =>
    rw [collapseWs_one, if_neg hc]
  | case4 a b rest hab ih =>
    exfalso
    rw [wellSpaced] at h
    obtain ⟨h1, _⟩ := Bool.and_eq_true_iff.mp h
    obtain ⟨_, h3⟩ := Bool.and_eq_true_iff.mp h1
    rw [hab] at h3
    exact absurd h3 (by decide)
  | case5 a b rest hab ih =>
    rw [collapseWs_two_ne hab]
    rw [wellSpaced] at h
    obtain ⟨h1, h2⟩ := Bool.and_eq_true_iff.mp h
    obtain ⟨h3, _⟩ := Bool.and_eq_true_iff.mp h1
    rw [ih h2]
    by_cases hwa : isWsChar a = true
    · rw [if_pos hwa]
      rcases Bool.or_eq_true_iff.mp h3 with h4 | h4
      · simp [hwa] at h4
      · rw [beq_iff_eq] at h4
        rw [h4]
    · rw [if_neg hwa]

/-! ### Fixed-point lemmas and idempotence of `normalize_text` (C8) -/

theorem mem_pyStrip {l : List Char} {c : Char} (h : c ∈ pyStrip l) : c ∈ l := by
  rw [pyStrip] at h
  rw [List.mem_reverse] at h
  have h1 := (List.dropWhile_sublist (l := (l.dropWhile isWsChar).reverse) isWsChar).mem h
  rw [List.mem_reverse] at h1
  exact (List.dropWhile_sublist isWsChar).mem h1

theorem lowerList_eq_self {l : List Char} (h : ∀ c ∈ l, pyLowerChar c = c) :
    lowerList l = l := by
  induction l with
  | nil => rfl
  | cons c rest ih =>
    rw [lowerList, List.map_cons, h c (List.mem_cons_self _ _),
      show List.map pyLowerChar rest = lowerList rest from rfl,
      ih (fun d hd => h d (List.mem_cons_of_mem _ hd))]

theorem normChars_lower_fixed {l : List Char} {c : Char} (h : c ∈ normChars l) :
    pyLowerChar c = c := by
  rw [normChars] at h
  rcases collapseWs_mem h with h1 | h1
  · subst h1
    decide
  · have h2 := mem_pyStrip h1
    rw [lowerList] at h2
    obtain ⟨d, _, hd⟩ := List.mem_map.mp h2
    rw [← hd]
    exact pyLowerChar_idem d

theorem pyStrip_eq_self {l : List Char} (h1 : noLeadWs l = true)
    (h2 : noTrailWs l = true) : pyStrip l = l := by
  rw [pyStrip]
  have e1 : l.dropWhile isWsChar = l := by
    cases l with
    | nil => rfl
    | cons c r =>
      rw [noLeadWs] at h1
      rw [List.dropWhile_cons, if_neg (by simpa using h1)]
  rw [e1]
  have e2 : l.reverse.dropWhile isWsChar = l.reverse := by
    rw [noTrailWs] at h2
    cases hr : l.reverse with
    | nil => rfl
    | cons c r =>
      rw [hr] at h2
      rw [noLeadWs] at h2
      rw [List.dropWhile_cons, if_neg (by simpa using h2)]
  rw [e2, List.reverse_reverse]

theorem tagFree_normChars (l : List Char) : tagFree (normChars l) = true := by
  rw [normChars]
  exact tagFree_collapseWs (tagFree_pyStrip (tagFree_lowerList (tagFree_stripTags l)))

theorem normChars_idem (l : List Char) : normChars (normChars l) = normChars l := by
  conv_lhs => rw [normChars]
  rw [stripTags_of_tagFree (tagFree_normChars l)]
  rw [lowerList_eq_self (fun c hc => normChars_lower_fixed hc)]
  rw [pyStrip_eq_self
    (by rw [normChars]; exact noLeadWs_collapseWs (noLeadWs_pyStrip _))
    (by rw [normChars]; exact noTrailWs_collapseWs (noTrailWs_pyStrip _))]
  rw [normChars]
  exact collapseWs_of_wellSpaced (wellSpaced_collapseWs _)

theorem string_mk_data (l : List Char) : (String.mk l).data = l := rfl

theorem normalize_text_idem (s : String) :
    normalize_text (normalize_text s) = normalize_text s := by
  by_cases hs : s = ""
  · subst hs
    rfl
  · have hs2 : normalize_text s = String.mk (normChars s.data) := by
      rw [normalize_text, if_neg hs]
    rw [hs2]
    by_cases hm : String.mk (normChars s.data) = ""
    · rw [hm]
      rfl
    · rw [normalize_text, if_neg hm, string_mk_data, normChars_idem]

/-! ### Occurrence and boundary matching primitives -/

/-- `needle` occurs in `hay` starting at index `i`. -/
def occursAt (needle hay : List Char) (i : Nat) : Bool :=
  (hay.drop i).take needle.length == needle

/-- Any occurrence of `needle` inside `hay` (Python's `needle in hay`). -/
def substrHit (needle hay : List Char) : Bool :=
  (List.range (hay.length + 1)).any (fun i => occursAt needle hay i)

def substrStr (needle hay : String) : Bool := substrHit needle.data hay.data

/-- An occurrence of `needle` at `i` whose left edge is the string start or
a `[\s,;/\-]` separator, and whose right edge is the string end or a
character accepted by `B`.  This is exactly a match of the regex
`(?:^|[\s,;/\-]) needle (?:$|B)` at some position. -/
def standaloneAt (B : Char → Bool) (needle hay : List Char) (i : Nat) : Bool :=
  occursAt needle hay i &&
  (i == 0 ||
    (match hay.drop (i - 1) with
     | c :: _ => isSepChar c
     | [] => false)) &&
  (match hay.drop (i + needle.length) with
   | [] => true
   | c :: _ => B c)

/-- `re.search` of the bounded pattern: an occurrence exists somewhere. -/
def boundedHit (B : Char → Bool) (needle hay : List Char) : Bool :=
  (List.range (hay.length + 1)).any (fun i => standaloneAt B needle hay i)

/-- The per-key test of `map_main_category`: the bounded regex with
separator class `[\s,;/\-]` on both sides, or an exact full-string
match. -/
def categoryKeyMatch (key phrase : List Char) : Bool :=
  boundedHit isSepChar key phrase || phrase == key

/-- The per-key test of `infer_category_from_name`: the same leading
boundary, but the trailing class additionally accepts an apostrophe or a
letter `s`, and there is no exact-equality fallback. -/
def inferKeyMatch (key text : List Char) : Bool :=
  boundedHit isSepCharS key text

/-- Word-ness of the character at index `p` (out of range counts as
non-word), for Python's `\b`. -/
def isWordAt (hay : List Char) (p : Nat) : Bool :=
  match hay.drop p with
  | c :: _ => isWordChar c
  | [] => false

/-- Python's `\b` word boundary at position `p`. -/
def wbBoundaryAt (hay : List Char) (p : Nat) : Bool :=
  (if p == 0 then false else isWordAt hay (p - 1)) != isWordAt hay p

/-- A `\b needle \b` match starting at or after `start`. -/
def wbHitFrom (needle hay : List Char) (start : Nat) : Bool :=
  (List.range (hay.length + 1)).any (fun j =>
    Nat.ble start j && occursAt needle hay j && wbBoundaryAt hay j &&
    wbBoundaryAt hay (j + needle.length))

/-- A `\b needle \b` match anywhere (strategy-2 style matching). -/
def wbHit (needle hay : List Char) : Bool := wbHitFrom needle hay 0

/-! ### Stable longest-key-first ordering (Python's `sorted(..., key=len, reverse=True)`) -/

def insertByKeyLen (p : String × String) :
    List (String × String) → List (String × String)
  | [] => [p]
  | q :: rest =>
    if q.1.length < p.1.length then p :: q :: rest else q :: insertByKeyLen p rest

/-- Stable sort of an association list, longest key first (ties keep
insertion order), as Python's stable `sorted` with `reverse=True`. -/
def sortByKeyLen : List (String × String) → List (String × String)
  | [] => []
  | p :: rest => insertByKeyLen p (sortByKeyLen rest)

/-! ### `map_main_category` and `infer_category_from_name` -/

/-- `map_main_category(categories, subcategories, main_category_map)`:
flatten the category inputs (an empty subcategory string contributes
nothing), normalize each phrase, and scan map keys longest-first with the
word-boundary pattern, returning the first mapped label, else `"Other"`.
In `normalize_product` the categories argument is always a list and the
subcategories argument a string, which is the case modelled here. -/
def map_main_category (categories : List String) (subcategories : String)
    (main_category_map : List (String × String)) : String :=
  let all_cats := categories ++ (if subcategories == "" then [] else [subcategories])
  let sorted := sortByKeyLen main_category_map
  match all_cats.findSome? (fun cat =>
    (sorted.find? (fun kv => categoryKeyMatch kv.1.data (normalize_text cat).data)).map
      (fun kv => kv.2)) with
  | some lbl => lbl
  | none => "Other"

/-- `infer_category_from_name(name, description, main_category_map)`:
longest-first scan of the normalized name+description text with the
pattern whose trailing class also accepts `'` and `s`. -/
def infer_category_from_name (name description : String)
    (main_category_map : List (String × String)) : String :=
  let text := normalize_text (name ++ " " ++ description)
  match (sortByKeyLen main_category_map).find?
      (fun kv => inferKeyMatch kv.1.data text.data) with
  | some kv => kv.2
  | none => "Other"

/-! ### `map_product_type`: the six-strategy cascade -/

/-- `re.sub(r'[^\w\s]', ' ', text)`: non-word, non-whitespace characters
become spaces. -/
def stripPunct (l : List Char) : List Char :=
  l.map (fun c => if isWordChar c || isWsChar c then c else ' ')

/-- Cleaning applied to name+description (and to category text) before
synonym matching: lowercase, punctuation to spaces, collapse whitespace,
strip. -/
def cleanTypeText (s : String) : List Char :=
  pyStrip (collapseWs (stripPunct (lowerList s.data)))

/-- Maximal runs of characters satisfying `keep` (accumulator reversed). -/
def runsAux (keep : Char → Bool) : List Char → List Char → List (List Char)
  | [], acc => if acc.isEmpty then [] else [acc.reverse]
  | c :: rest, acc =>
    if keep c then runsAux keep rest (c :: acc)
    else if acc.isEmpty then runsAux keep rest []
    else acc.reverse :: runsAux keep rest []

def runsOf (keep : Char → Bool) (l : List Char) : List (List Char) := runsAux keep l []

/-- Python's `str.split()`: maximal runs of non-whitespace. -/
def wordsOf (l : List Char) : List (List Char) := runsOf (fun c => !isWsChar c) l

/-- Python's `re.findall(r'\b\w+\b', s)`: maximal runs of word characters. -/
def wordRuns (l : List Char) : List (List Char) := runsOf isWordChar l

/-- Strategy 1: trust a non-empty, non-`"Other"` vendor product type. -/
def strat_existing (existing : String) : Option String :=
  if existing != "" && pyStripStr existing != "" && pyStripStr existing != "Other"
  then some (pyStripStr existing) else none

/-- Strategy 2: longest-first `\b`-bounded synonym match. -/
def strat2 (sorted : List (String × String)) (text : List Char) : Option String :=
  (sorted.find? (fun kv => wbHit (lowerList kv.1.data) text)).map (fun kv => kv.2)

/-- Strategy 3: every word of the synonym appears in the text's word set. -/
def strat3 (sorted : List (String × String)) (text : List Char) : Option String :=
  (sorted.find? (fun kv =>
    (wordsOf (lowerList kv.1.data)).all (fun w => (wordsOf text).contains w))).map
    (fun kv => kv.2)

/-- Strategy 4: plain substring match. -/
def strat4 (sorted : List (String × String)) (text : List Char) : Option String :=
  (sorted.find? (fun kv => substrHit (lowerList kv.1.data) text)).map (fun kv => kv.2)

/-- `str(categories)` for a Python list of strings: bracketed,
comma-separated, each element quoted. -/
def pyReprStrList (cats : List String) : String :=
  "[" ++ String.intercalate ", " (cats.map (fun c => "\x27" ++ c ++ "\x27")) ++ "]"

/-- The cleaned category text used by strategy 5. -/
def cleanCatText (cats : List String) : List Char :=
  pyStrip (collapseWs (stripPunct (lowerList (pyReprStrList cats).data)))

/-- Strategy 5: repeat the bounded scan and then the substring scan on the
stringified category list (skipped when it is empty/falsy). -/
def strat5 (sorted : List (String × String)) (cats : List String) : Option String :=
  if cats.isEmpty then none
  else
    let ct := cleanCatText cats
    match strat2 sorted ct with
    | some c => some c
    | none => strat4 sorted ct

/-- The shapes appearing in the `smart_patterns` regex table. -/
inductive SmartPat where
  | alts (ws : List String)
  | pair (ws1 ws2 : List String)
  | leavein
deriving DecidableEq

def evalAlt (ws : List String) (t : List Char) : Bool :=
  ws.any (fun w => wbHit w.data t)

/-- `\b(w₁|…)\b.*\b(v₁|…)\b`: a bounded first-group hit followed (at or
after its end) by a bounded second-group hit. -/
def evalPair (ws1 ws2 : List String) (t : List Char) : Bool :=
  (List.range (t.length + 1)).any (fun i =>
    ws1.any (fun w1 =>
      occursAt w1.data t i && wbBoundaryAt t i && wbBoundaryAt t (i + w1.data.length) &&
      ws2.any (fun w2 => wbHitFrom w2.data t (i + w1.data.length))))

/-- `\bleave.?in\b`: `leave`, at most one (non-newline) character, `in`. -/
def evalLeaveIn (t : List Char) : Bool :=
  (List.range (t.length + 1)).any (fun i =>
    wbBoundaryAt t i &&
    ((occursAt "leavein".data t i && wbBoundaryAt t (i + 7)) ||
     (occursAt "leave".data t i &&
      (match t.drop (i + 5) with
       | c :: _ => !(c == '\n')
       | [] => false) &&
      occursAt "in".data t (i + 6) && wbBoundaryAt t (i + 8))))

def evalSmartPat : SmartPat → List Char → Bool
  | SmartPat.alts ws, t => evalAlt ws t
  | SmartPat.pair ws1 ws2, t => evalPair ws1 ws2 t
  | SmartPat.leavein, t => evalLeaveIn t

/-- The ordered `smart_patterns` table of strategy 6. -/
def smart_patterns : List (SmartPat × String) :=
  [ (SmartPat.alts ["mask", "masque"], "Face Mask"),
    (SmartPat.pair ["cream", "creme"] ["hair", "curl"], "Hair Cream"),
    (SmartPat.pair ["oil"] ["hair", "scalp"], "Hair Oil"),
    (SmartPat.pair ["gel", "gelly", "custard"] ["hair", "curl", "style"], "Hair Gel"),
    (SmartPat.pair ["butter"] ["hair", "curl", "body"], "Hair Butter"),
    (SmartPat.pair ["brush"] ["hair", "wave", "style"], "Hair Brush"),
    (SmartPat.alts ["shampoo", "cleanser"], "Shampoo"),
    (SmartPat.alts ["conditioner"], "Conditioner"),
    (SmartPat.leavein, "Leave-In Conditioner"),
    (SmartPat.pair ["serum"] ["face", "facial", "skin"], "Face Serum"),
    (SmartPat.pair ["scrub"] ["face", "facial"], "Face Scrub"),
    (SmartPat.pair ["scrub"] ["body"], "Body Scrub"),
    (SmartPat.pair ["moisturizer"] ["face", "facial"], "Face Moisturizer"),
    (SmartPat.pair ["moisturizer", "lotion"] ["body"], "Body Butter"),
    (SmartPat.pair ["cleanser"] ["face", "facial"], "Face Cleanser"),
    (SmartPat.pair ["balm"] ["lip"], "Lip Balm"),
    (SmartPat.pair ["gloss"] ["lip"], "Lip Gloss"),
    (SmartPat.pair ["polish"] ["nail"], "Nail Polish"),
    (SmartPat.alts ["candle"], "Scented Candle"),
    (SmartPat.alts ["perfume", "fragrance", "cologne"], "Perfume"),
    (SmartPat.alts ["dress"], "Dress"),
    (SmartPat.alts ["bikini"], "Bikini"),
    (SmartPat.alts ["bag", "handbag", "purse"], "Handbag"),
    (SmartPat.pair ["soap"] ["bar"], "Bar Soap"),
    (SmartPat.alts ["vitamins", "supplements"], "Vitamins") ]

/-- Strategy 6: first matching hand-authored pattern wins. -/
def strat6 (text : List Char) : Option String :=
  (smart_patterns.find? (fun ps => evalSmartPat ps.1 text)).map (fun ps => ps.2)

/-- `map_product_type(name, description, categories, synonyms, existing)`:
the six-strategy cascade, first success wins, else `"Other"`. -/
def map_product_type (name description : String) (categories : List String)
    (product_type_synonyms : List (String × String))
    (existing_product_type : String) : String :=
  match strat_existing existing_product_type with
  | some t => t
  | none =>
    let text := cleanTypeText (name ++ " " ++ description)
    let sorted := sortByKeyLen product_type_synonyms
    match strat2 sorted text <|> strat3 sorted text <|> strat4 sorted text <|>
      strat5 sorted categories <|> strat6 text with
    | some c => c
    | none => "Other"

/-! ### `extract_form`, `detect_set_bundle`, `extract_tags` -/

/-- The ordered `forms` table: label with its keyword aliases, iterated in
declaration order, substring matching. -/
def forms_table : List (String × List String) :=
  [ ("oil", ["oil", "serum"]),
    ("cream", ["cream", "lotion", "butter"]),
    ("gel", ["gel", "gelly"]),
    ("spray", ["spray", "mist"]),
    ("foam", ["foam", "mousse"]),
    ("bar", ["bar", "soap bar"]),
    ("serum", ["serum"]),
    ("balm", ["balm"]),
    ("wax", ["wax", "pomade"]),
    ("powder", ["powder"]),
    ("liquid", ["liquid", "shampoo", "conditioner"]) ]

/-- `extract_form(name, description)`: first form whose keyword occurs as a
substring of the lowercased name+description. -/
def extract_form (name description : String) : String :=
  let text := lowerList (name ++ " " ++ description).data
  match forms_table.find? (fun fk => fk.2.any (fun kw => substrHit kw.data text)) with
  | some fk => fk.1
  | none => "other"

def bundle_keywords : List String :=
  ["kit", "set", "bundle", "pack", "duo", "trio", "collection", "system"]

/-- `detect_set_bundle(name, description)`: bundle keyword present as a
substring of the lowercased name+description. -/
def detect_set_bundle (name description : String) : String :=
  let text := lowerList (name ++ " " ++ description).data
  if bundle_keywords.any (fun kw => substrHit kw.data text) then "kit/bundle" else "single"

def stop_words : List String := ["the", "and", "for", "with"]

def dedupFirstAux (seen : List String) : List String → List String
  | [] => []
  | s :: rest =>
    if seen.contains s then dedupFirstAux seen rest
    else s :: dedupFirstAux (s :: seen) rest

/-- First-occurrence deduplication; models the Python `set` of tags as a
deterministic list (set iteration order is not specified in Python, and no
claim depends on it). -/
def dedupFirst (l : List String) : List String := dedupFirstAux [] l

/-- `extract_tags(name, description, categories)`: up to 5 meaningful name
tokens plus up to 3 normalized category phrases (the description parameter
is unused in the source as well). -/
def extract_tags (name description : String) (categories : List String) : List String :=
  let name_words := (wordRuns (lowerList name.data)).map String.mk
  let meaningful := name_words.filter
    (fun w => 2 < w.length && !(stop_words.contains w))
  let catTags := (categories.take 3).map normalize_text
  dedupFirst (meaningful.take 5 ++ catTags)

/-! ### `_is_womens_care` and `refine_category` -/

def womens_care_kw : List String :=
  [ "yoni", "feminine wash", "feminine hygiene", "feminine deodorant",
    "feminine care", "feminine spray", "feminine oil", "feminine foam",
    "feminine soothing", "feminine skin", "foaming feminine",
    "intimate wash", "intimate spray", "intimate oil", "intimate gel",
    "intimate flora", "vaginal", "vagina", "menstrual", "period underwear",
    "period panty", "reusable period", "boric acid", "v steam", "vsteam",
    "womb detox", "womb matter", "yoni steam", "yoni oil", "yoni wash",
    "yoni egg", "yoni toning", "yoni elixir", "yoni duo", "kitty potion",
    "cookie wash", "cookie oil", "cookie restore", "ph balance",
    "prenatal", "postpartum", "fertility supplement", "ovulation",
    "menstrual cup", "feminine hygiene bundle", "yin trifecta" ]

/-- `_is_womens_care(name_and_type)`: any curated feminine/intimate-care
keyword occurs as a substring. -/
def _is_womens_care (name_and_type : String) : Bool :=
  womens_care_kw.any (fun kw => substrStr kw name_and_type)

def kids_indicators : List String :=
  ["girls\x27 clothing", "baby", "toddler", "kids\x27", "pet supplies",
   "pet clothing", "pet apparel", "dog"]

def womens_indicators : List String := ["women\x27s", "female", "bridal", "lingerie"]

def vitamin_kw : List String :=
  [ "vitamin", "supplement", "protein", "collagen", "probiotic",
    "gummies", "gummy", "creatine", "elderberry", "melatonin",
    "testosterone", "multivitamin", "capsule", "tablet",
    "meal replacement", "nutritional shake", "weight gain",
    "pre-workout", "energy supplement", "superfood",
    "sea moss", "herbal extract", "herbal supplement" ]

def mens_kw : List String := ["razor", "beard", "shav", "grooming", "shaver"]

def books_kw : List String :=
  [ "book", "ebook", "e-book", "journal", "planner", "guide",
    "workbook", "coloring", "print", "painting", "postcard",
    "dice", "play dough", "affirmation cards", "banner",
    "pencil", "crayon", "paint brush", "stationery",
    "recipe book", "digital download", "digital workbook" ]

/-! ### Raw and normalized records -/

/-- The price field of a raw record as seen by the defensive parser:
absent (`.get` default `'0'`), falsy (`''`), parsing to a number, or
unparsable. -/
inductive RawPrice where
  | missing
  | empty
  | numeric (q : ℚ)
  | junk
deriving DecidableEq

/-- `float(price_str) if price_str else 0.0` inside `try/except`. -/
def parsePrice : RawPrice → ℚ
  | RawPrice.missing => 0
  | RawPrice.empty => 0
  | RawPrice.numeric q => q
  | RawPrice.junk => 0

/-- A raw vendor record; each `String` field models `product.get(key, '')`
with its default already applied, while `id` keeps presence explicit. -/
structure RawProduct where
  Name : String
  Company : String
  Price : RawPrice
  Source : String
  ImageURL : String
  Link : String
  MainCategory : String
  Subcategory1 : String
  Subcategory2 : String
  ProductType : String
  id : Option String
deriving DecidableEq

/-- The record produced by `normalize_product` (the `_raw` audit field is
kept). -/
structure NormalizedProduct where
  id : String
  name : String
  company : String
  price : ℚ
  image_url : String
  product_url : String
  main_category : String
  product_type : String
  form : String
  set_bundle : String
  tags : List String
  subcategory_2 : String
  raw : RawProduct
deriving DecidableEq

/-- The `name_and_type` text assembled at the top of `refine_category`:
lowercased cleaned-in name, lowercased already-computed product type
(empty product type stays empty), and lowercased raw vendor type. -/
def refineNameAndType (product : RawProduct) (product_type : String) : String :=
  lowerStr product.Name ++ " " ++
  (if product_type == "" then "" else lowerStr product_type) ++ " " ++
  lowerStr product.ProductType

/-- `refine_category(main_category, product, product_type)`: the Women's
Care check runs first; then the Clothing, Health & Wellness and
Accessories splits; anything else passes through.  (In the Accessories
battery branch the Python code falls through to the books check when the
outer battery test succeeds but the inner one fails, which is modelled by
the conjunction.) -/
def refine_category (main_category : String) (product : RawProduct)
    (product_type : String) : String :=
  let raw_subcat1 := lowerStr product.Subcategory1
  let raw_main_cat := lowerStr product.MainCategory
  let raw_combined := lowerStr (raw_main_cat ++ " " ++ raw_subcat1)
  let name_and_type := refineNameAndType product product_type
  if _is_womens_care name_and_type then "Women\x27s Care"
  else if main_category == "Clothing" then
    if kids_indicators.any (fun kw => substrStr kw raw_combined) then "Baby & Kids"
    else if womens_indicators.any (fun kw => substrStr kw raw_combined) then
      "Women\x27s Clothing"
    else if substrStr "men\x27s" raw_combined && !(substrStr "women\x27s" raw_combined) then
      "Men\x27s Clothing"
    else "Women\x27s Clothing"
  else if main_category == "Health & Wellness" then
    if vitamin_kw.any (fun kw => substrStr kw name_and_type) then
      "Vitamins & Supplements"
    else if mens_kw.any (fun kw => substrStr kw name_and_type) then "Men\x27s Care"
    else "Body Care"
  else if main_category == "Accessories" then
    if (substrStr "battery" name_and_type || substrStr "batteries" name_and_type ||
        substrStr "charger pack" name_and_type ||
        substrStr "battery charger" name_and_type) &&
       (substrStr "rechargeable" name_and_type || substrStr "battery" name_and_type ||
        substrStr "charger" name_and_type) then "Home Care"
    else if books_kw.any (fun kw => substrStr kw name_and_type) then "Books & More"
    else "Accessories"
  else main_category

/-! ### Price conversion and `normalize_product` -/

/-- Round half to even, as Python's builtin `round`. -/
def roundHalfEven (x : ℚ) : ℤ :=
  let f := Int.floor x
  let r := x - f
  if r < 1/2 then f
  else if 1/2 < r then f + 1
  else if Even f then f else f + 1

/-- `round(x, 2)`. -/
def round2 (x : ℚ) : ℚ := (roundHalfEven (x * 100) : ℚ) / 100

def NGN_SOURCES : List String := ["nubanbeauty.com", "yangabeauty.com"]

def NGN_TO_USD : ℚ := 1 / 1500

/-- The cleaned product name: HTML-like tags removed, stripped, whitespace
collapsed (no lowercasing here). -/
def cleanName (s : String) : String := String.mk (collapseWs (pyStrip (stripTags s.data)))

/-- `normalize_product(product, main_category_map, product_type_synonyms)`.
`pyhash` models Python's per-run builtin string hash used for synthetic
ids. -/
def normalize_product (pyhash : String → Int)
    (main_category_map product_type_synonyms : List (String × String))
    (product : RawProduct) : NormalizedProduct :=
  let name := cleanName product.Name
  let price0 := parsePrice product.Price
  let price := if NGN_SOURCES.contains product.Source && decide (0 < price0)
    then round2 (price0 * NGN_TO_USD) else price0
  let description := ""
  let categories := [product.MainCategory, product.Subcategory1, product.Subcategory2,
    product.ProductType].filter (fun c => c != "")
  let subcategories := pyStripStr (product.Subcategory1 ++ " " ++ product.Subcategory2)
  let main_category0 := map_main_category categories subcategories main_category_map
  let main_category1 := if main_category0 == "Other"
    then infer_category_from_name name description main_category_map
    else main_category0
  let product_type := map_product_type name description categories
    product_type_synonyms product.ProductType
  let main_category := refine_category main_category1 product product_type
  let form := extract_form name description
  let set_bundle := detect_set_bundle name description
  let tags := extract_tags name description categories
  let product_id := match product.id with
    | some i => i
    | none => "product_" ++ toString (pyhash (name ++ product.Company))
  ⟨product_id, name, product.Company, price, product.ImageURL, product.Link,
    main_category, product_type, form, set_bundle, tags, product.Subcategory2, product⟩

/-! ### The batch loop of `main`: stats, dedup, recompute -/

/-- The multiset count a `Counter` holds after one increment per list
element. -/
def tally (l : List String) (v : String) : Nat := (l.filter (fun x => x == v)).length

structure BatchStats where
  main_categories : String → Nat
  product_types : String → Nat
  forms : String → Nat
  set_bundles : String → Nat
  unknown_types : List String

def dedupByIdAux (seen : List String) :
    List NormalizedProduct → List NormalizedProduct
  | [] => []
  | p :: rest =>
    if seen.contains p.id then dedupByIdAux seen rest
    else p :: dedupByIdAux (p.id :: seen) rest

/-- Keep the first occurrence of each id, in input order. -/
def dedupById (l : List NormalizedProduct) : List NormalizedProduct := dedupByIdAux [] l

structure BatchResult where
  products : List NormalizedProduct
  stats : BatchStats

/-- The processing part of `main`: normalize every product (the model has
no per-record exceptions), accumulate the four counters and the
`unknown_types` name sample, deduplicate by id keeping first occurrences,
and recount the four counters from the deduplicated list only when
duplicates were actually removed (`unknown_types` is never rebuilt). -/
def mainBatch (pyhash : String → Int)
    (main_category_map product_type_synonyms : List (String × String))
    (products : List RawProduct) : BatchResult :=
  let normalized := products.map
    (normalize_product pyhash main_category_map product_type_synonyms)
  let unknown := (normalized.filter (fun n => n.product_type == "Other")).map
    (fun n => n.name.take 50)
  let deduped := dedupById normalized
  let dupes_removed := normalized.length - deduped.length
  let source := if 0 < dupes_removed then deduped else normalized
  ⟨deduped,
    ⟨tally (source.map (fun p => p.main_category)),
     tally (source.map (fun p => p.product_type)),
     tally (source.map (fun p => p.form)),
     tally (source.map (fun p => p.set_bundle)),
     unknown⟩⟩

/-! ### Facts about bounded occurrences (C2, C9) -/

theorem isSepChar_iff {c : Char} : isSepChar c = true ↔
    (c.toNat = 32 ∨ c.toNat = 9 ∨ c.toNat = 10 ∨ c.toNat = 13 ∨ c.toNat = 11 ∨ c.toNat = 12 ∨
     c.toNat = 44 ∨ c.toNat = 59 ∨ c.toNat = 47 ∨ c.toNat = 45) := by
  unfold isSepChar
  simp only [Bool.or_eq_true, beq_iff_eq, isWsChar_iff]
  rw [char_eq_iff_toNat, char_eq_iff_toNat, char_eq_iff_toNat, char_eq_iff_toNat]
  have e1 : (',' : Char).toNat = 44 := rfl
  have e2 : (';' : Char).toNat = 59 := rfl
  have e3 : ('/' : Char).toNat = 47 := rfl
  have e4 : ('-' : Char).toNat = 45 := rfl
  rw [e1, e2, e3, e4]
  tauto

theorem isWordChar_iff {c : Char} : isWordChar c = true ↔
    ((65 ≤ c.toNat ∧ c.toNat ≤ 90) ∨ (97 ≤ c.toNat ∧ c.toNat ≤ 122) ∨
     (48 ≤ c.toNat ∧ c.toNat ≤ 57) ∨ c.toNat = 95) := by
  unfold isWordChar
  simp only [Bool.or_eq_true, Bool.and_eq_true, beq_iff_eq, decide_eq_true_eq]
  rw [char_eq_iff_toNat]
  have e : ('_' : Char).toNat = 95 := rfl
  rw [e]
  tauto

theorem sep_not_word {c : Char} (h : isSepChar c = true) : isWordChar c = false := by
  rw [isSepChar_iff] at h
  rw [Bool.eq_false_iff]
  intro hw
  rw [isWordChar_iff] at hw
  omega

theorem drop_eq_nil_of_ge {l : List Char} {p : Nat} (h : l.length ≤ p) : l.drop p = [] := by
  exact List.drop_eq_nil_of_le h

theorem lt_of_drop_cons {l : List Char} {p : Nat} {c : Char} {t : List Char}
    (h : l.drop p = c :: t) : p < l.length := by
  by_contra hge
  rw [drop_eq_nil_of_ge (by omega)] at h
  exact absurd h (by simp)

theorem isWordAt_of_ge {l : List Char} {p : Nat} (h : l.length ≤ p) :
    isWordAt l p = false := by
  rw [isWordAt, drop_eq_nil_of_ge h]

theorem occursAt_self (k : List Char) : occursAt k k 0 = true := by
  rw [occursAt, List.drop_zero, List.take_length]
  exact beq_self_eq_true k

theorem occursAt_bound {k t : List Char} {i : Nat} (hk : k ≠ [])
    (h : occursAt k t i = true) : i + k.length ≤ t.length := by
  rw [occursAt, beq_iff_eq] at h
  have hlen := congrArg List.length h
  rw [List.length_take, List.length_drop] at hlen
  have hkl : k.length ≠ 0 := fun h0 => hk (List.length_eq_zero.mp h0)
  omega

theorem standaloneAt_le {B : Char → Bool} {k t : List Char} {i : Nat}
    (h : standaloneAt B k t i = true) : i ≤ t.length := by
  rw [standaloneAt] at h
  obtain ⟨h12, _⟩ := Bool.and_eq_true_iff.mp h
  obtain ⟨hocc, hleft⟩ := Bool.and_eq_true_iff.mp h12
  by_cases hk : k = []
  · rcases Bool.or_eq_true_iff.mp hleft with hz | hm
    · rw [Nat.beq_eq_true_eq] at hz
      omega
    · cases hd : t.drop (i - 1) with
      | nil => rw [hd] at hm; exact absurd hm (by simp)
      | cons c cs =>
        have := lt_of_drop_cons hd
        omega
  · have := occursAt_bound hk hocc
    omega

theorem boundedHit_iff {B : Char → Bool} {k t : List Char} :
    boundedHit B k t = true ↔ ∃ i, standaloneAt B k t i = true := by
  rw [boundedHit, List.any_eq_true]
  constructor
  · rintro ⟨i, _, hi⟩
    exact ⟨i, hi⟩
  · rintro ⟨i, hi⟩
    refine ⟨i, List.mem_range.mpr ?_, hi⟩
    have := standaloneAt_le hi
    omega

theorem standaloneAt_mono {k t : List Char} {i : Nat}
    (h : standaloneAt isSepChar k t i = true) : standaloneAt isSepCharS k t i = true := by
  rw [standaloneAt] at h ⊢
  obtain ⟨h12, hright⟩ := Bool.and_eq_true_iff.mp h
  refine Bool.and_eq_true_iff.mpr ⟨h12, ?_⟩
  cases hd : t.drop (i + k.length) with
  | nil => rfl
  | cons c cs =>
    rw [hd] at hright
    have hr : isSepChar c = true := hright
    show isSepCharS c = true
    unfold isSepCharS
    rw [hr]
    rfl

/-! ### Deduplication facts (C3, C10) -/

theorem dedupByIdAux_mem_not_seen {seen : List String} {l : List NormalizedProduct}
    {x : NormalizedProduct} (hx : x ∈ dedupByIdAux seen l) :
    seen.contains x.id = false := by
  induction l generalizing seen with
  | nil => rw [dedupByIdAux] at hx; simp at hx
  | cons p rest ih =>
    rw [dedupByIdAux] at hx
    by_cases hs : seen.contains p.id = true
    · rw [if_pos hs] at hx
      exact ih hx
    · rw [if_neg hs] at hx
      rcases List.mem_cons.mp hx with he | hm
      · subst he
        exact Bool.not_eq_true _ ▸ hs
      · have h2 := ih hm
        rw [List.contains_cons] at h2
        exact (Bool.or_eq_false_iff.mp h2).2

theorem dedupByIdAux_nodup (seen : List String) (l : List NormalizedProduct) :
    ((dedupByIdAux seen l).map (fun p => p.id)).Nodup := by
  induction l generalizing seen with
  | nil => rw [dedupByIdAux]; exact List.nodup_nil
  | cons p rest ih =>
    rw [dedupByIdAux]
    by_cases hs : seen.contains p.id = true
    · rw [if_pos hs]
      exact ih seen
    · rw [if_neg hs]
      rw [List.map_cons, List.nodup_cons]
      refine ⟨?_, ih (p.id :: seen)⟩
      intro hmem
      obtain ⟨x, hx, hxid⟩ := List.mem_map.mp hmem
      have h2 := dedupByIdAux_mem_not_seen hx
      rw [List.contains_cons] at h2
      have := (Bool.or_eq_false_iff.mp h2).1
      rw [beq_eq_false_iff_ne] at this
      exact this hxid

theorem dedupByIdAux_find {seen : List String} {l : List NormalizedProduct}
    {x : NormalizedProduct} (hx : x ∈ dedupByIdAux seen l) :
    l.find? (fun y => y.id == x.id) = some x := by
  induction l generalizing seen with
  | nil => rw [dedupByIdAux] at hx; simp at hx
  | cons p rest ih =>
    rw [dedupByIdAux] at hx
    by_cases hs : seen.contains p.id = true
    · rw [if_pos hs] at hx
      have hxs := dedupByIdAux_mem_not_seen hx
      have hne : (p.id == x.id) = false := by
        rw [beq_eq_false_iff_ne]
        intro he
        rw [← he] at hxs
        rw [hxs] at hs
        exact absurd hs (by simp)
      rw [List.find?_cons_of_neg _ (by simp [hne])]
      exact ih hx
    · rw [if_neg hs] at hx
      rcases List.mem_cons.mp hx with he | hm
      · subst he
        exact List.find?_cons_of_pos _ (by simp)
      · have hxs := dedupByIdAux_mem_not_seen hm
        rw [List.contains_cons] at hxs
        have hne := (Bool.or_eq_false_iff.mp hxs).1
        rw [beq_eq_false_iff_ne] at hne
        rw [List.find?_cons_of_neg _ (by simp; exact fun he => hne he.symm)]
        exact ih hm

theorem dedupByIdAux_covers {seen : List String} {l : List NormalizedProduct}
    {y : NormalizedProduct} (hy : y ∈ l) (hs : seen.contains y.id = false) :
    ∃ x ∈ dedupByIdAux seen l, x.id = y.id := by
  induction l generalizing seen with
  | nil => simp at hy
  | cons p rest ih =>
    rw [dedupByIdAux]
    rcases List.mem_cons.mp hy with he | hm
    · subst he
      rw [if_neg (by rw [hs]; simp)]
      exact ⟨y, List.mem_cons_self _ _, rfl⟩
    · by_cases hps : seen.contains p.id = true
      · rw [if_pos hps]
        exact ih hm hs
      · rw [if_neg hps]
        by_cases hpy : p.id = y.id
        · exact ⟨p, List.mem_cons_self _ _, hpy⟩
        · have hs2 : (p.id :: seen).contains y.id = false := by
            rw [List.contains_cons, Bool.or_eq_false_iff]
            refine ⟨?_, hs⟩
            rw [beq_eq_false_iff_ne]
            exact fun he => hpy he.symm
          obtain ⟨x, hx, hxid⟩ := ih hm hs2
          exact ⟨x, List.mem_cons_of_mem _ hx, hxid⟩

theorem dedupByIdAux_length_le (seen : List String) (l : List NormalizedProduct) :
    (dedupByIdAux seen l).length ≤ l.length := by
  induction l generalizing seen with
  | nil => rw [dedupByIdAux]
  | cons p rest ih =>
    rw [dedupByIdAux]
    by_cases hs : seen.contains p.id = true
    · rw [if_pos hs]
      have := ih seen
      simp only [List.length_cons]
      omega
    · rw [if_neg hs]
      simp only [List.length_cons]
      have := ih (p.id :: seen)
      omega

theorem dedupByIdAux_length_eq {seen : List String} {l : List NormalizedProduct}
    (h : (dedupByIdAux seen l).length = l.length) : dedupByIdAux seen l = l := by
  induction l generalizing seen with
  | nil => rw [dedupByIdAux]
  | cons p rest ih =>
    rw [dedupByIdAux] at h ⊢
    by_cases hs : seen.contains p.id = true
    · rw [if_pos hs] at h
      exfalso
      have := dedupByIdAux_length_le seen rest
      simp only [List.length_cons] at h
      omega
    · rw [if_neg hs] at h ⊢
      simp only [List.length_cons] at h
      rw [ih (by omega)]

/-! ### Helper for the stats source of `mainBatch` (C3) -/

def dedupById_eq_of_length {l : List NormalizedProduct}
    (h : (dedupById l).length = l.length) : dedupById l = l :=
  dedupByIdAux_length_eq h

theorem mainBatch_source_eq (l : List NormalizedProduct) :
    (if 0 < l.length - (dedupById l).length then dedupById l else l) = dedupById l := by
  by_cases h : 0 < l.length - (dedupById l).length
  · rw [if_pos h]
  · rw [if_neg h]
    have hle := dedupByIdAux_length_le [] l
    have hlen : (dedupById l).length = l.length := by
      rw [dedupById]
      rw [dedupById] at h
      omega
    exact (dedupById_eq_of_length hlen).symm

/-! ### Concrete records used by counterexamples and witnesses -/

/-- A fixed stand-in for Python's per-run string hash. -/
def pyhash0 : String → Int := fun _ => 0

/-- The end-to-end example record of C5: name `"Shea Lip Balm"`, no
description, no categories. -/
def sheaProduct : RawProduct :=
  ⟨"Shea Lip Balm", "", RawPrice.missing, "", "", "", "", "", "", "", some "shea-1"⟩

/-- Two copies of this record share the id `"x"` and classify as
`"Other"`. -/
def dupOther : RawProduct :=
  ⟨"Zzz", "", RawPrice.missing, "", "", "", "", "", "", "", some "x"⟩

/-- An NGN-source record with a positive price. -/
def ngnProduct : RawProduct :=
  ⟨"X", "", RawPrice.numeric 3000, "nubanbeauty.com", "", "", "", "", "", "", some "n1"⟩

/-- A record from an unknown source with the same price. -/
def usdProduct : RawProduct :=
  ⟨"X", "", RawPrice.numeric 3000, "example.com", "", "", "", "", "", "", some "n2"⟩

/-- A record without an id, for the synthetic-id claim. -/
def noIdProductA : RawProduct :=
  ⟨"Same Name", "Same Co", RawPrice.numeric 1, "", "", "", "", "", "", "", none⟩

/-- A second id-less record with the same name and company but a different
price. -/
def noIdProductB : RawProduct :=
  ⟨"Same Name", "Same Co", RawPrice.numeric 2, "", "", "", "", "", "", "", none⟩

/-! ### C1 -/

/-- C1: whenever the vendor-supplied product type is non-empty after
trimming and differs from `"Other"`, `map_product_type` returns that value
trimmed, whatever the name, description, categories and synonym map are:
the trust-existing strategy out-ranks all text matching. -/
theorem C1_trust_existing (name description : String) (categories : List String)
    (product_type_synonyms : List (String × String)) (existing_product_type : String)
    (h1 : pyStripStr existing_product_type ≠ "")
    (h2 : pyStripStr existing_product_type ≠ "Other") :
    map_product_type name description categories product_type_synonyms
      existing_product_type = pyStripStr existing_product_type := by
  have h0 : existing_product_type ≠ "" := by
    intro he
    apply h1
    rw [he]
    rfl
  have hcond : (existing_product_type != "" && pyStripStr existing_product_type != "" &&
      pyStripStr existing_product_type != "Other") = true := by
    simp only [Bool.and_eq_true, bne_iff_ne, ne_eq]
    exact ⟨⟨h0, h1⟩, h2⟩
  have hs : strat_existing existing_product_type =
      some (pyStripStr existing_product_type) := by
    rw [strat_existing, if_pos hcond]
  rw [map_product_type, hs]

/-- C1 witness: a concrete vendor type with surrounding whitespace. -/
theorem C1_trust_existing_witness :
    pyStripStr " Body Butter " ≠ "" ∧ pyStripStr " Body Butter " ≠ "Other" ∧
    map_product_type "Moisture Stick" "rich shea butter cream" ["Skin Care"]
      [("butter", "Hair Butter")] " Body Butter " = pyStripStr " Body Butter " :=
  ⟨by decide, by decide,
   C1_trust_existing "Moisture Stick" "rich shea butter cream" ["Skin Care"]
     [("butter", "Hair Butter")] " Body Butter " (by decide) (by decide)⟩

/-! ### C2 -/

/-- C2 counterexample: in the phrase `"best men."` the key `"men"` stands
alone, bounded by a space on the left and the punctuation `'.'` on the
right, yet `map_main_category` does not match it — the regex boundary
class is only `[\s,;/\-]`, so a full stop does not qualify even though the
claim's "whitespace, punctuation, or string edges" wording promises a
match. -/
theorem C2_counterexample :
    occursAt "men".data (normalize_text "best men.").data 5 = true ∧
    categoryKeyMatch "men".data (normalize_text "best men.").data = false ∧
    map_main_category ["best men."] "" [("men", "Hair Care")] = "Other" ∧
    map_main_category ["best men."] "" [("men", "Hair Care")] ≠ "Hair Care" := by
  refine ⟨by decide, by decide, by decide, by decide⟩

/-- C2 (amended): the per-key test of `map_main_category` never matches a
key all of whose occurrences touch a word character (so a key inside a
longer word never matches), and it does match whenever the key occurs
bounded on each side by the string edge or one of the separator characters
whitespace, comma, semicolon, slash, hyphen (not arbitrary
punctuation). -/
theorem C2_word_boundary (key phrase : List Char) :
    ((∀ i, i ≤ phrase.length → occursAt key phrase i = true →
        ((0 < i ∧ isWordAt phrase (i - 1) = true) ∨
          isWordAt phrase (i + key.length) = true)) →
      categoryKeyMatch key phrase = false) ∧
    (∀ i, standaloneAt isSepChar key phrase i = true →
      categoryKeyMatch key phrase = true) := by
  constructor
  · intro H
    rw [Bool.eq_false_iff]
    intro ht
    rw [categoryKeyMatch, Bool.or_eq_true_iff] at ht
    rcases ht with hb | he
    · obtain ⟨i, hi⟩ := boundedHit_iff.mp hb
      have hle := standaloneAt_le hi
      rw [standaloneAt] at hi
      obtain ⟨h12, hright⟩ := Bool.and_eq_true_iff.mp hi
      obtain ⟨hocc, hleft⟩ := Bool.and_eq_true_iff.mp h12
      rcases H i hle hocc with ⟨hpos, hword⟩ | hword
      · rcases Bool.or_eq_true_iff.mp hleft with hz | hsep
        · rw [Nat.beq_eq_true_eq] at hz
          omega
        · cases hd : phrase.drop (i - 1) with
          | nil => rw [hd] at hsep; exact absurd hsep (by simp)
          | cons c cs =>
            rw [hd] at hsep
            have hs2 : isSepChar c = true := hsep
            rw [isWordAt, hd] at hword
            have hw2 : isWordChar c = true := hword
            rw [sep_not_word hs2] at hw2
            exact absurd hw2 (by simp)
      · cases hd : phrase.drop (i + key.length) with
        | nil =>
          rw [isWordAt, hd] at hword
          exact absurd hword (by simp)
        | cons c cs =>
          rw [hd] at hright
          have hs2 : isSepChar c = true := hright
          rw [isWordAt, hd] at hword
          have hw2 : isWordChar c = true := hword
          rw [sep_not_word hs2] at hw2
          exact absurd hw2 (by simp)
    · rw [beq_iff_eq] at he
      have hocc0 : occursAt key phrase 0 = true := by
        rw [he]
        exact occursAt_self key
      rcases H 0 (Nat.zero_le _) hocc0 with ⟨hpos, _⟩ | hword
      · omega
      · rw [he, isWordAt_of_ge (by omega)] at hword
        exact absurd hword (by simp)
  · intro i hi
    rw [categoryKeyMatch]
    exact Bool.or_eq_true_iff.mpr (Or.inl (boundedHit_iff.mpr ⟨i, hi⟩))

/-- C2 witness: `"men"` inside `"women"` never matches; `"men"` standalone
in `"buy men"` matches. -/
theorem C2_word_boundary_witness :
    categoryKeyMatch "men".data "women".data = false ∧
    categoryKeyMatch "men".data "buy men".data = true :=
  ⟨(C2_word_boundary "men".data "women".data).1 (by decide),
   (C2_word_boundary "men".data "buy men".data).2 4 (by decide)⟩

/-! ### C3 -/

/-- C3 counterexample: for a batch of two identical records with the same
id whose product type classifies as `"Other"`, the final output keeps a
single record, but `unknown_types` still lists the name twice — it is
accumulated before deduplication and never rebuilt, so the
ClassificationStats are not computed entirely from the deduplicated
output as the claim states. -/
theorem C3_counterexample :
    (mainBatch pyhash0 [] [] [dupOther, dupOther]).products.length = 1 ∧
    (mainBatch pyhash0 [] [] [dupOther, dupOther]).stats.unknown_types ≠
      (((mainBatch pyhash0 [] [] [dupOther, dupOther]).products.filter
          (fun n => n.product_type == "Other")).map (fun n => n.name.take 50)) := by
  refine ⟨by decide, by decide⟩

/-- C3 (amended): the final output contains exactly one record per id —
the first occurrence in input order — and the four per-value counters are
computed from the deduplicated output; the `unknown_types` name list,
however, is accumulated from the pre-dedup normalized sequence. -/
theorem C3_dedup_and_stats (pyhash : String → Int)
    (m syns : List (String × String)) (products : List RawProduct) :
    (((mainBatch pyhash m syns products).products.map (fun p => p.id)).Nodup) ∧
    (∀ x ∈ (mainBatch pyhash m syns products).products,
      (products.map (normalize_product pyhash m syns)).find?
        (fun y => y.id == x.id) = some x) ∧
    (∀ y ∈ products.map (normalize_product pyhash m syns),
      ∃ x ∈ (mainBatch pyhash m syns products).products, x.id = y.id) ∧
    (∀ v, (mainBatch pyhash m syns products).stats.main_categories v =
      tally ((mainBatch pyhash m syns products).products.map
        (fun p => p.main_category)) v) ∧
    (∀ v, (mainBatch pyhash m syns products).stats.product_types v =
      tally ((mainBatch pyhash m syns products).products.map
        (fun p => p.product_type)) v) ∧
    (∀ v, (mainBatch pyhash m syns products).stats.forms v =
      tally ((mainBatch pyhash m syns products).products.map (fun p => p.form)) v) ∧
    (∀ v, (mainBatch pyhash m syns products).stats.set_bundles v =
      tally ((mainBatch pyhash m syns products).products.map
        (fun p => p.set_bundle)) v) ∧
    (mainBatch pyhash m syns products).stats.unknown_types =
      ((products.map (normalize_product pyhash m syns)).filter
        (fun n => n.product_type == "Other")).map (fun n => n.name.take 50) := by
  refine ⟨?_, ?_, ?_, ?_, ?_, ?_, ?_, rfl⟩
  · exact dedupByIdAux_nodup [] _
  · intro x hx
    exact dedupByIdAux_find hx
  · intro y hy
    exact dedupByIdAux_covers hy rfl
  · intro v
    show tally ((if 0 < (products.map (normalize_product pyhash m syns)).length -
          (dedupById (products.map (normalize_product pyhash m syns))).length
        then dedupById (products.map (normalize_product pyhash m syns))
        else products.map (normalize_product pyhash m syns)).map
          (fun p => p.main_category)) v = _
    rw [mainBatch_source_eq]
    rfl
  · intro v
    show tally ((if 0 < (products.map (normalize_product pyhash m syns)).length -
          (dedupById (products.map (normalize_product pyhash m syns))).length
        then dedupById (products.map (normalize_product pyhash m syns))
        else products.map (normalize_product pyhash m syns)).map
          (fun p => p.product_type)) v = _
    rw [mainBatch_source_eq]
    rfl
  · intro v
    show tally ((if 0 < (products.map (normalize_product pyhash m syns)).length -
          (dedupById (products.map (normalize_product pyhash m syns))).length
        then dedupById (products.map (normalize_product pyhash m syns))
        else products.map (normalize_product pyhash m syns)).map
          (fun p => p.form)) v = _
    rw [mainBatch_source_eq]
    rfl
  · intro v
    show tally ((if 0 < (products.map (normalize_product pyhash m syns)).length -
          (dedupById (products.map (normalize_product pyhash m syns))).length
        then dedupById (products.map (normalize_product pyhash m syns))
        else products.map (normalize_product pyhash m syns)).map
          (fun p => p.set_bundle)) v = _
    rw [mainBatch_source_eq]
    rfl

/-- C3 witness: concrete instance of the amended statement on a
two-record batch with a duplicate id. -/
theorem C3_dedup_and_stats_witness :
    (((mainBatch pyhash0 [] [] [dupOther, dupOther]).products.map
      (fun p => p.id)).Nodup) ∧
    (mainBatch pyhash0 [] [] [dupOther, dupOther]).stats.unknown_types =
      (([dupOther, dupOther].map (normalize_product pyhash0 [] [])).filter
        (fun n => n.product_type == "Other")).map (fun n => n.name.take 50) :=
  ⟨(C3_dedup_and_stats pyhash0 [] [] [dupOther, dupOther]).1,
   (C3_dedup_and_stats pyhash0 [] [] [dupOther, dupOther]).2.2.2.2.2.2.2⟩

/-! ### C4 -/

/-- C4: whenever the combined name+type text contains a curated
feminine/intimate-care keyword, `refine_category` returns `"Women's
Care"` regardless of the provisional main category, because this check is
evaluated before every other branch. -/
theorem C4_womens_care_first (main_category : String) (product : RawProduct)
    (product_type : String)
    (h : _is_womens_care (refineNameAndType product product_type) = true) :
    refine_category main_category product product_type = "Women\x27s Care" := by
  rw [refine_category]
  rw [if_pos h]

/-- C4 witness: a yoni product whose provisional category is Clothing. -/
theorem C4_womens_care_first_witness :
    _is_womens_care (refineNameAndType
      ⟨"Yoni Steam Blend", "", RawPrice.missing, "", "", "", "Clothing", "", "", "",
        some "y1"⟩ "Other") = true ∧
    refine_category "Clothing"
      ⟨"Yoni Steam Blend", "", RawPrice.missing, "", "", "", "Clothing", "", "", "",
        some "y1"⟩ "Other" = "Women\x27s Care" :=
  ⟨by decide,
   C4_womens_care_first "Clothing"
     ⟨"Yoni Steam Blend", "", RawPrice.missing, "", "", "", "Clothing", "", "", "",
       some "y1"⟩ "Other" (by decide)⟩

/-! ### C5 -/

/-- C5 counterexample: for `"Shea Lip Balm"` with empty description and
categories and a synonym map without a matching entry, the regex fallback
pattern is `\b(balm)\b.*\b(lip)\b`, which requires `balm` *before* `lip`;
`"shea lip balm"` therefore matches no pattern and the product type is
`"Other"`, not `"Lip Balm"` — while form and set_bundle do come out as the
claim says. -/
theorem C5_counterexample :
    (normalize_product pyhash0 [] [] sheaProduct).product_type = "Other" ∧
    (normalize_product pyhash0 [] [] sheaProduct).product_type ≠ "Lip Balm" ∧
    (normalize_product pyhash0 [] [] sheaProduct).form = "balm" ∧
    (normalize_product pyhash0 [] [] sheaProduct).set_bundle = "single" := by
  refine ⟨by decide, by decide, by decide, by decide⟩

/-- C5 (amended): for the record with name `"Shea Lip Balm"`, empty
description and categories, and a synonym map on which strategies 2–4
find no match, normalization yields product_type `"Other"` (the balm-lip
regex requires `balm` to precede `lip`), form `"balm"`, and set_bundle
`"single"`. -/
theorem C5_shea_lip_balm (pyhash : String → Int)
    (m syns : List (String × String))
    (h2 : strat2 (sortByKeyLen syns) (cleanTypeText ("Shea Lip Balm" ++ " " ++ "")) = none)
    (h3 : strat3 (sortByKeyLen syns) (cleanTypeText ("Shea Lip Balm" ++ " " ++ "")) = none)
    (h4 : strat4 (sortByKeyLen syns) (cleanTypeText ("Shea Lip Balm" ++ " " ++ "")) = none) :
    (normalize_product pyhash m syns sheaProduct).product_type = "Other" ∧
    (normalize_product pyhash m syns sheaProduct).form = "balm" ∧
    (normalize_product pyhash m syns sheaProduct).set_bundle = "single" := by
  refine ⟨?_, rfl, rfl⟩
  show map_product_type "Shea Lip Balm" "" [] syns "" = "Other"
  rw [map_product_type]
  have he : strat_existing "" = none := rfl
  rw [he]
  show (match strat2 (sortByKeyLen syns) (cleanTypeText ("Shea Lip Balm" ++ " " ++ "")) <|>
        strat3 (sortByKeyLen syns) (cleanTypeText ("Shea Lip Balm" ++ " " ++ "")) <|>
        strat4 (sortByKeyLen syns) (cleanTypeText ("Shea Lip Balm" ++ " " ++ "")) <|>
        strat5 (sortByKeyLen syns) [] <|>
        strat6 (cleanTypeText ("Shea Lip Balm" ++ " " ++ "")) with
       | some c => c
       | none => "Other") = "Other"
  rw [h2, h3, h4]
  rw [show strat5 (sortByKeyLen syns) [] = none from rfl]
  rw [show strat6 (cleanTypeText ("Shea Lip Balm" ++ " " ++ "")) = none by decide]
  rfl

/-- C5 witness: the empty synonym map trivially has no matching entry. -/
theorem C5_shea_lip_balm_witness :
    (normalize_product pyhash0 [] [] sheaProduct).product_type = "Other" ∧
    (normalize_product pyhash0 [] [] sheaProduct).form = "balm" ∧
    (normalize_product pyhash0 [] [] sheaProduct).set_bundle = "single" :=
  C5_shea_lip_balm pyhash0 [] [] rfl rfl rfl

/-! ### C6 -/

/-- C6 counterexample: `"Hydrating Serum"` contains `serum` and no other
form keyword, yet `extract_form` returns `"oil"`, not `"serum"`: the
catch-all `'oil'` family lists `'serum'` as an alias and is checked
*before* the dedicated `'serum'` entry, contrary to the claim. -/
theorem C6_counterexample :
    extract_form "Hydrating Serum" "" = "oil" ∧
    extract_form "Hydrating Serum" "" ≠ "serum" := by
  refine ⟨by decide, by decide⟩

/-- C6 (amended): the `'oil'` family, which lists `'serum'` as an alias,
precedes the dedicated `'serum'` entry in the forms table; consequently
any text containing `"serum"` (in particular text whose only form keyword
is `"serum"`) yields the label `"oil"`, and the `'serum'` label is
unreachable. -/
theorem C6_serum_shadowed (name description : String)
    (h : substrHit "serum".data (lowerList (name ++ " " ++ description).data) = true) :
    extract_form name description = "oil" := by
  rw [extract_form]
  have hpred : (fun fk : String × List String =>
      fk.2.any (fun kw => substrHit kw.data (lowerList (name ++ " " ++ description).data)))
      ("oil", ["oil", "serum"]) = true := by
    simp only [List.any_cons, List.any_nil, Bool.or_eq_true]
    right
    left
    exact h
  rw [forms_table]
  simp only [List.find?, hpred]

/-- C6 witness. -/
theorem C6_serum_shadowed_witness :
    substrHit "serum".data (lowerList ("Hydrating Serum" ++ " " ++ "").data) = true ∧
    extract_form "Hydrating Serum" "" = "oil" :=
  ⟨by decide, C6_serum_shadowed "Hydrating Serum" "" (by decide)⟩

/-! ### C7 -/

/-- C7: a record from a known foreign-currency source with positive
parsed price has its price multiplied by the fixed rate and rounded to 2
decimals; any other source, or a non-positive parsed price, leaves the
defensively parsed price unchanged. -/
theorem C7_currency (pyhash : String → Int) (m syns : List (String × String))
    (product : RawProduct) :
    (NGN_SOURCES.contains product.Source = true → 0 < parsePrice product.Price →
      (normalize_product pyhash m syns product).price =
        round2 (parsePrice product.Price * NGN_TO_USD)) ∧
    (NGN_SOURCES.contains product.Source = false →
      (normalize_product pyhash m syns product).price = parsePrice product.Price) ∧
    (¬ 0 < parsePrice product.Price →
      (normalize_product pyhash m syns product).price = parsePrice product.Price) := by
  have hp : (normalize_product pyhash m syns product).price =
      (if NGN_SOURCES.contains product.Source && decide (0 < parsePrice product.Price)
       then round2 (parsePrice product.Price * NGN_TO_USD)
       else parsePrice product.Price) := rfl
  refine ⟨?_, ?_, ?_⟩
  · intro hsrc hpos
    rw [hp, if_pos (by rw [hsrc, decide_eq_true hpos]; rfl)]
  · intro hsrc
    rw [hp, if_neg (by rw [hsrc]; simp)]
  · intro hpos
    rw [hp, if_neg (by rw [decide_eq_false hpos]; simp)]

/-- C7 witness: 3000 NGN from a known source becomes 2.00; the same price
from an unknown source is untouched. -/
theorem C7_currency_witness :
    (normalize_product pyhash0 [] [] ngnProduct).price =
      round2 (parsePrice ngnProduct.Price * NGN_TO_USD) ∧
    (normalize_product pyhash0 [] [] usdProduct).price =
      parsePrice usdProduct.Price :=
  ⟨(C7_currency pyhash0 [] [] ngnProduct).1 (by decide) (by decide),
   (C7_currency pyhash0 [] [] usdProduct).2.1 (by decide)⟩

/-! ### C8 -/

/-- C8: `normalize_text` is idempotent, and empty or missing input yields
the empty string. -/
theorem C8_normalize_text_idempotent :
    (∀ s : String, normalize_text (normalize_text s) = normalize_text s) ∧
    normalize_text "" = "" ∧ normalize_text_field none = "" :=
  ⟨normalize_text_idem, rfl, rfl⟩

/-- C8 witness: idempotence at a concrete messy string. -/
theorem C8_normalize_text_idempotent_witness :
    normalize_text (normalize_text "  Shea <b>Butter</b>   CREAM ") =
      normalize_text "  Shea <b>Butter</b>   CREAM " :=
  C8_normalize_text_idempotent.1 "  Shea <b>Butter</b>   CREAM "

/-! ### C9 -/

/-- C9 counterexample: on the text `"mens"` with the single map key
`"men"`, `infer_category_from_name` matches (its trailing boundary class
also accepts a letter `s`), while `map_main_category` on the same phrase
does not — the two scans are not identical. -/
theorem C9_counterexample :
    infer_category_from_name "mens" "" [("men", "Hair Care")] = "Hair Care" ∧
    map_main_category ["mens"] "" [("men", "Hair Care")] = "Other" := by
  refine ⟨by decide, by decide⟩

/-- C9 (amended): `infer_category_from_name` runs the same longest-first
scan against the name+description text, but its right boundary class
additionally accepts an apostrophe or a letter `s` (so possessive/plural
forms also match); its per-key test therefore matches whenever
`map_main_category`'s does, not identically. -/
theorem C9_infer_refines_category_match (key text : List Char)
    (h : categoryKeyMatch key text = true) : inferKeyMatch key text = true := by
  rw [categoryKeyMatch] at h
  rw [inferKeyMatch]
  rcases Bool.or_eq_true_iff.mp h with hb | he
  · obtain ⟨i, hi⟩ := boundedHit_iff.mp hb
    exact boundedHit_iff.mpr ⟨i, standaloneAt_mono hi⟩
  · rw [beq_iff_eq] at he
    subst he
    refine boundedHit_iff.mpr ⟨0, ?_⟩
    rw [standaloneAt]
    refine Bool.and_eq_true_iff.mpr
      ⟨Bool.and_eq_true_iff.mpr ⟨occursAt_self _, by simp⟩, ?_⟩
    rw [Nat.zero_add, drop_eq_nil_of_ge (Nat.le_refl _)]

/-- C9 witness. -/
theorem C9_infer_refines_category_match_witness :
    inferKeyMatch "men".data "buy men".data = true :=
  C9_infer_refines_category_match "men".data "buy men".data (by decide)

/-! ### C10 -/

/-- C10: two raw records without an `id` field and with equal Name and
Company get the same synthetic id, so batch deduplication keeps only the
first of them even when other fields differ. -/
theorem C10_synthetic_id (pyhash : String → Int)
    (m syns : List (String × String)) (p1 p2 : RawProduct)
    (h1 : p1.id = none) (h2 : p2.id = none)
    (hn : p1.Name = p2.Name) (hc : p1.Company = p2.Company) :
    (normalize_product pyhash m syns p1).id = (normalize_product pyhash m syns p2).id ∧
    (mainBatch pyhash m syns [p1, p2]).products = [normalize_product pyhash m syns p1] := by
  have hid1 : (normalize_product pyhash m syns p1).id =
      (match p1.id with
       | some i => i
       | none => "product_" ++ toString (pyhash (cleanName p1.Name ++ p1.Company))) := rfl
  have hid2 : (normalize_product pyhash m syns p2).id =
      (match p2.id with
       | some i => i
       | none => "product_" ++ toString (pyhash (cleanName p2.Name ++ p2.Company))) := rfl
  have heq : (normalize_product pyhash m syns p1).id =
      (normalize_product pyhash m syns p2).id := by
    rw [hid1, hid2, h1, h2, hn, hc]
  refine ⟨heq, ?_⟩
  show dedupById [normalize_product pyhash m syns p1, normalize_product pyhash m syns p2] =
    [normalize_product pyhash m syns p1]
  rw [dedupById, dedupByIdAux, if_neg (by simp)]
  have hcont : ([(normalize_product pyhash m syns p1).id].contains
      (normalize_product pyhash m syns p2).id) = true := by
    rw [← heq]
    simp
  rw [dedupByIdAux, if_pos hcont, dedupByIdAux]

/-- C10 witness: two id-less records sharing name and company but with
different prices collapse to the first. -/
theorem C10_synthetic_id_witness :
    (normalize_product pyhash0 [] [] noIdProductA).id =
      (normalize_product pyhash0 [] [] noIdProductB).id ∧
    (mainBatch pyhash0 [] [] [noIdProductA, noIdProductB]).products =
      [normalize_product pyhash0 [] [] noIdProductA] :=
  C10_synthetic_id pyhash0 [] [] noIdProductA noIdProductB rfl rfl rfl rfl
